import Mathlib

/-!
Verification development for `tmhmm.py`, a parser for TMHMM 2.0 hidden Markov
model files together with a log-space Viterbi decoder.

Modelling conventions.

* Python dicts (all of which are small and keyed by strings, characters or
  state indices) are embedded as association lists whose keys are kept unique
  by construction: `dictInsert` replaces an existing binding in place (keeping
  its position, like CPython dict assignment) and appends fresh keys, so list
  order coincides with dict insertion order.
* Probabilities are embedded as exact rationals `ℚ`; `float(...)` is embedded
  by `pyFloat?`, an exact decimal/exponent parser returning `none` where
  Python would raise `ValueError` (the string forms Python additionally
  accepts — `inf`, `nan`, embedded underscores — never occur in model files
  and are mapped to `none`).
* `numpy.log` maps probabilities to IEEE doubles where `log 0 = -inf` and
  `-inf` is absorbing for `+` and minimal for `<`.  Scores are embedded as
  `WithBot ℚ` (with `⊥` playing the role of `-inf`) and the log function
  itself is passed as an explicit parameter `log : ℚ → WithBot ℚ`: none of
  the control flow of `optimal_path` depends on the values `log` takes.
* Fallible operations (`popleft` on an empty deque, dict lookup misses,
  out-of-bounds numpy indexing, `float`/`int` conversion failures,
  `.values()`/`.items()` on a non-dict) are modelled with `Option`;
  `none` corresponds to a raised Python exception.
* Loops are embedded either structurally or with an explicit fuel argument
  that the wrapper instantiates with a value provably larger than the number
  of iterations (each loop iteration consumes at least one token/character).
-/

/-- CPython dict assignment `d[k] = v` on an association list: an existing
binding is updated in place (keeping its position in insertion order), a new
key is appended at the end. -/
def dictInsert {α β : Type} [DecidableEq α] (m : List (α × β)) (k : α) (v : β) :
    List (α × β) :=
  match m with
  | [] => [(k, v)]
  | p :: rest => if p.1 = k then (k, v) :: rest else p :: dictInsert rest k v

/-- CPython dict lookup `d[k]` on an association list; `none` models
`KeyError`.  All dicts in this development have unique keys, so finding the
first binding agrees with dict semantics. -/
def dictLookup {α β : Type} [DecidableEq α] (m : List (α × β)) (k : α) :
    Option β :=
  match m with
  | [] => none
  | p :: rest => if p.1 = k then some p.2 else dictLookup rest k

/-- CPython `del d[k]` on an association list (the binding is known to be
present at every call site, so the missing-key `KeyError` case never
arises). -/
def dictErase {α β : Type} [DecidableEq α] (m : List (α × β)) (k : α) :
    List (α × β) :=
  match m with
  | [] => []
  | p :: rest => if p.1 = k then rest else p :: dictErase rest k

/-- Left fold of a fallible loop body, propagating the first failure: the
embedding of a Python `for` loop whose body may raise. -/
def foldlO {α β : Type} (f : β → α → Option β) : β → List α → Option β
  | b, [] => some b
  | b, a :: l =>
    match f b a with
    | none => none
    | some b1 => foldlO f b1 l

/-! ### Numeric literal conversion (`float(...)`, `int(...)`) -/

/-- Value of a (known-digit) character list read in base 10. -/
def digitsToNat (l : List Char) : Nat :=
  l.foldl (fun a c => 10 * a + (c.toNat - 48)) 0

/-- Non-empty string of decimal digits. -/
def isDigits (l : List Char) : Bool :=
  decide (l ≠ []) && l.all Char.isDigit

/-- Split a character list at every character satisfying `p` (the separators
are dropped; `n` separators yield `n + 1` pieces). -/
def splitAtP (p : Char → Bool) : List Char → List (List Char)
  | [] => [[]]
  | c :: rest =>
    if p c then [] :: splitAtP p rest
    else
      match splitAtP p rest with
      | [] => [[c]]
      | h :: t => (c :: h) :: t

/-- Strip an optional leading sign, returning the sign as `1` or `-1`. -/
def parseSign (l : List Char) : Int × List Char :=
  match l with
  | '-' :: r => (-1, r)
  | '+' :: r => (1, r)
  | _ => (1, l)

/-- Unsigned decimal mantissa: `digits`, `digits.digits`, `digits.` or
`.digits`. -/
def parseUnsignedFloat (l : List Char) : Option ℚ :=
  match splitAtP (fun c => c = '.') l with
  | [ip] => if isDigits ip then some ((digitsToNat ip : ℚ)) else none
  | [ip, fp] =>
    if ip.isEmpty && fp.isEmpty then none
    else if (ip.isEmpty || isDigits ip) && (fp.isEmpty || isDigits fp) then
      some ((digitsToNat ip : ℚ) + (digitsToNat fp : ℚ) / ((10 : ℚ) ^ fp.length))
    else none
  | _ => none

/-- Application of a parsed sign (`1` or `-1`) to a magnitude. -/
def applySign (sign : Int) (q : ℚ) : ℚ :=
  if sign = 1 then q else -q

/-- Embedding of Python `float(token)` restricted to finite decimal forms
(optional sign, mantissa, optional exponent); `none` models `ValueError`. -/
def pyFloat? (s : String) : Option ℚ :=
  let sl := parseSign s.toList
  match splitAtP (fun c => c = 'e' || c = 'E') sl.2 with
  | [m] =>
    match parseUnsignedFloat m with
    | none => none
    | some q => some (applySign sl.1 q)
  | [m, e] =>
    match parseUnsignedFloat m with
    | none => none
    | some q =>
      let esl := parseSign e
      if isDigits esl.2 then
        some (applySign sl.1 (q * (10 : ℚ) ^ (esl.1 * (digitsToNat esl.2 : ℤ))))
      else none
  | _ => none

/-- Embedding of Python `int(token)`; `none` models `ValueError`. -/
def pyInt? (s : String) : Option Int :=
  let sl := parseSign s.toList
  if isDigits sl.2 then some (sl.1 * (digitsToNat sl.2 : ℤ)) else none

/-! ### Tokenizer and comment stripping -/

/-- Characters matched by the identifier/number alternative of the token
regular expression `[A-Za-z0-9.\-_]+`. -/
def isIdentChar (c : Char) : Bool :=
  c.isAlpha || c.isDigit || c = '.' || c = '-' || c = '_'

/-- The four punctuation tokens `:`, `;`, `{`, `}`. -/
def isPunctChar (c : Char) : Bool :=
  c = ':' || c = ';' || c = '\x7b' || c = '\x7d'

/-- Fuelled left-to-right scanner realizing
`re.findall(r'([A-Za-z0-9\.\-_]+|[:;\{\}])', contents)`: a maximal run of
identifier characters, a single punctuation character, or skip. -/
def tokenizeFuel : Nat → List Char → List String
  | 0, _ => []
  | _, [] => []
  | fuel + 1, c :: cs =>
    if isIdentChar c then
      String.mk (c :: cs.takeWhile isIdentChar) ::
        tokenizeFuel fuel (cs.dropWhile isIdentChar)
    else if isPunctChar c then
      String.mk [c] :: tokenizeFuel fuel cs
    else tokenizeFuel fuel cs

/-- `_tokenize`: every scanner iteration consumes at least one character, so
`length + 1` fuel always suffices. -/
def _tokenize (contents : List Char) : List String :=
  tokenizeFuel (contents.length + 1) contents

/-- Python `l.startswith('#')`. -/
def startsWithHash (l : String) : Bool :=
  match l.toList with
  | c :: _ => c = '#'
  | [] => false

/-- `_strip_comments`: drop every line whose first character is `#` and
concatenate the rest (the file is given as its list of lines, as iterating a
Python file object yields). -/
def _strip_comments (file_like : List String) : List Char :=
  ((file_like.filter (fun l => ¬ startsWithHash l)).map String.toList).flatten

/-! ### Grammar parser -/

/-- A token is just its string. -/
abbrev Token := String

/-- Value of one field of a raw state: a verbatim token, an `int(...)`
conversion, a bare list, or a key/probability mapping. -/
inductive FieldVal : Type where
  | str (s : String)
  | int (n : Int)
  | list (l : List Token)
  | map (m : List (String × ℚ))
deriving DecidableEq, Repr

/-- A parsed state block: field name to field value, in insertion order. -/
abbrev RawState := List (String × FieldVal)

/-- The parsed header: configuration key to verbatim token. -/
abbrev Header := List (String × String)

/-- The mapping of state name to raw state, in file order. -/
abbrev StateDict := List (String × RawState)

/-- `_parse_list`: pop tokens into a list until a `;` is seen; the `;` is
pushed back.  `none` models `popleft` on an exhausted deque. -/
def _parse_list : List Token → Option (List Token × List Token)
  | [] => none
  | t :: ts =>
    if t = ";" then some (t :: ts, [])
    else
      match _parse_list ts with
      | none => none
      | some (rest, l) => some (rest, t :: l)

/-- Loop of `_parse_map`: on `;` push it back and return the accumulated map;
if the token after a candidate key is not `:`, push both tokens back and
return the `none` fallback value (discarding the accumulated entries, exactly
as the Python early `return None` does); otherwise convert the value with
`float` and continue. -/
def parseMapLoop (acc : List (String × ℚ)) :
    List Token → Option (List Token × Option (List (String × ℚ)))
  | [] => none
  | [t] => if t = ";" then some ([t], some acc) else none
  | t :: nt :: ts2 =>
    if t = ";" then some (t :: nt :: ts2, some acc)
    else if nt = ":" then
      match ts2 with
      | [] => none
      | v :: ts3 =>
        match pyFloat? v with
        | none => none
        | some q => parseMapLoop (dictInsert acc t q) ts3
    else some (t :: nt :: ts2, none)

/-- `_parse_map`. -/
def _parse_map (ts : List Token) :
    Option (List Token × Option (List (String × ℚ))) :=
  parseMapLoop [] ts

/-- Loop of `_parse_state`: read a field name, dispatch on it (`trans`/`only`
try map parsing with a list fallback, `type`/`end` convert with `int`, any
other field takes the next token verbatim), store the field, pop the
terminating `;` unchecked; stop on `}`. -/
def parseStateLoop : Nat → RawState → List Token → Option (List Token × RawState)
  | 0, _, _ => none
  | _, _, [] => none
  | fuel + 1, acc, t :: ts =>
    if t = "\x7d" then some (ts, acc)
    else
      match
        (if t = "trans" || t = "only" then
          match parseMapLoop [] ts with
          | none => none
          | some (ts1, some m) => some (ts1, FieldVal.map m)
          | some (ts1, none) =>
            match _parse_list ts1 with
            | none => none
            | some (ts2, l) => some (ts2, FieldVal.list l)
        else if t = "type" || t = "end" then
          match ts with
          | [] => none
          | v :: ts1 =>
            match pyInt? v with
            | none => none
            | some n => some (ts1, FieldVal.int n)
        else
          match ts with
          | [] => none
          | v :: ts1 => some (ts1, FieldVal.str v)) with
      | none => none
      | some (ts2, value) =>
        match ts2 with
        | [] => none
        | _semi :: ts3 => parseStateLoop fuel (dictInsert acc t value) ts3

/-- `_parse_state`: pop the state name and the `{` (unchecked), then run the
field loop. -/
def _parse_state (fuel : Nat) (ts : List Token) :
    Option (List Token × (String × RawState)) :=
  match ts with
  | [] => none
  | name :: ts1 =>
    match ts1 with
    | [] => none
    | _brace :: ts2 =>
      match parseStateLoop fuel [] ts2 with
      | none => none
      | some (rest, st) => some (rest, (name, st))

/-- Loop of `_parse_header`: read `key value ;` triples until `}`. -/
def parseHeaderLoop (acc : Header) :
    List Token → Option (List Token × Header)
  | [] => none
  | t :: ts =>
    if t = "\x7d" then some (ts, acc)
    else
      match ts with
      | [] => none
      | v :: ts2 =>
        match ts2 with
        | [] => none
        | _semi :: ts3 => parseHeaderLoop (dictInsert acc t v) ts3

/-- `_parse_header`: pop the `header` and `{` tokens (unchecked), then run
the key/value loop. -/
def _parse_header (ts : List Token) : Option (List Token × Header) :=
  match ts with
  | [] => none
  | _hdr :: ts1 =>
    match ts1 with
    | [] => none
    | _brace :: ts2 => parseHeaderLoop [] ts2

/-- The `while tokens:` loop of `parse_model`: parse complete state blocks
until the token stream is exhausted (so on success no trailing token is ever
left over, which is what the final `assert not tokens` records).  Every state
block consumes at least its name token, so `length + 1` fuel suffices. -/
def parseStatesLoop : Nat → StateDict → List Token → Option StateDict
  | _, sts, [] => some sts
  | 0, _, _ :: _ => none
  | fuel + 1, sts, t :: ts =>
    match _parse_state (ts.length + 1) (t :: ts) with
    | none => none
    | some (rest, (n, st)) => parseStatesLoop fuel (dictInsert sts n st) rest

/-! ### State normalization -/

/-- The verbatim-token payload of a field (`tied_trans` / `tied_letter`
references); anything else is unhashable/unusable as a state name. -/
def fieldStr? : FieldVal → Option String
  | .str s => some s
  | _ => none

/-- Python iteration over a field value (`zip(state['trans'], ...)` iterates
a list over its items, a dict over its keys, a string over its one-character
substrings); iterating an `int` raises `TypeError`. -/
def fieldKeys? : FieldVal → Option (List String)
  | .list l => some l
  | .map m => some (m.map Prod.fst)
  | .str s => some (s.toList.map (fun c => String.mk [c]))
  | .int _ => none

/-- Python `.values()`: only a dict has it (`AttributeError` otherwise). -/
def fieldMapVals? : FieldVal → Option (List ℚ)
  | .map m => some (m.map Prod.snd)
  | _ => none

/-- Reading a field as a key/probability dict (`.items()` or `dict(...)`
copying): only a dict qualifies.  (`dict(l)` of a bare token list raises
`ValueError` for the one-character tokens that occur in model files.) -/
def fieldMap? : FieldVal → Option (List (String × ℚ))
  | .map m => some m
  | _ => none

/-- Python `dict(pairs)`: successive assignment, later duplicates override
earlier ones in place. -/
def dictOfPairs (l : List (String × ℚ)) : List (String × ℚ) :=
  l.foldl (fun d p => dictInsert d p.1 p.2) []

/-- The `tied_trans` half of one `_normalize_states` iteration: resolve a
`tied_trans` reference by positionally zipping this state's declared targets
(`zip` iterates `state['trans']` over its keys) with the parent's transition
probability values (`parent['trans'].values()`, which requires the parent's
`trans` to already be a concrete mapping), and assign the resulting dict to
this state's `trans` in place. -/
def tiedTransPhase (states : StateDict) (name : String) (state : RawState) :
    Option StateDict :=
  match dictLookup state "tied_trans" with
  | none => some states
  | some tt =>
    match fieldStr? tt with
    | none => none
    | some parentName =>
      match dictLookup states parentName with
      | none => none
      | some parent =>
        match dictLookup state "trans" with
        | none => none
        | some tf =>
          match fieldKeys? tf with
          | none => none
          | some ks =>
            match dictLookup parent "trans" with
            | none => none
            | some ptf =>
              match fieldMapVals? ptf with
              | none => none
              | some vals =>
                some (dictInsert states name
                  (dictInsert state "trans"
                    (FieldVal.map (dictOfPairs (ks.zip vals)))))

/-- The `tied_letter` half of one `_normalize_states` iteration: copy the
referenced state's `only` mapping verbatim (`dict(states[parent]['only'])`)
into this state (the state is looked up afresh since the first half updates
it in place). -/
def tiedLetterPhase (states1 : StateDict) (name : String) : Option StateDict :=
  match dictLookup states1 name with
  | none => none
  | some state1 =>
    match dictLookup state1 "tied_letter" with
    | none => some states1
    | some tl =>
      match fieldStr? tl with
      | none => none
      | some parentName =>
        match dictLookup states1 parentName with
        | none => none
        | some parent =>
          match dictLookup parent "only" with
          | none => none
          | some pov =>
            match fieldMap? pov with
            | none => none
            | some m =>
              some (dictInsert states1 name
                (dictInsert state1 "only" (FieldVal.map m)))

/-- One iteration of the `_normalize_states` loop, for the state called
`name` inside the (mutably updated) mapping `states`: the `tied_trans`
resolution followed by the `tied_letter` resolution. -/
def normStep (states : StateDict) (name : String) : Option StateDict :=
  match dictLookup states name with
  | none => none
  | some state =>
    match tiedTransPhase states name state with
    | none => none
    | some states1 => tiedLetterPhase states1 name

/-- `_normalize_states`: a single pass over the states in insertion order;
each iteration sees the updates made by the earlier ones. -/
def _normalize_states (states : StateDict) : Option StateDict :=
  foldlO normStep states (states.map Prod.fst)

/-! ### Matrix form -/

/-- The matrix-form model bundle returned by `_to_matrix_form`. -/
structure MatrixModel : Type where
  initial : List ℚ
  transitions : List (List ℚ)
  emissions : List (List ℚ)
  char_map : List (Char × Nat)
  label_map : List (Nat × String)
  name_map : List (Nat × String)
deriving DecidableEq, Repr

/-- `{v: k for k, v in enumerate(l)}` (a duplicated element keeps the last
index, as repeated dict assignment does). -/
def buildIdxMap {κ : Type} [DecidableEq κ] (l : List κ) : List (κ × Nat) :=
  l.enum.foldl (fun d p => dictInsert d p.2 p.1) []

/-- Lookup of an emission-map key (a token, i.e. a string) in the
character-keyed `char_map`: only a one-character token can hit. -/
def lookupCharTok (cm : List (Char × Nat)) (s : String) : Option Nat :=
  match s.toList with
  | [c] => dictLookup cm c
  | _ => none

/-- In-range two-dimensional assignment `m[i, j] = v` (all call sites in
`_to_matrix_form` have provably in-range indices, so no bounds check is
needed). -/
def setEntryT {α : Type} (m : List (List α)) (i j : Nat) (v : α) :
    List (List α) :=
  m.set i ((m.getD i []).set j v)

/-- One iteration of the initial-probability loop:
`initial[state_map[state_name]] = trans_prob`. -/
def initialStep (state_map : List (String × Nat)) (ini : List ℚ)
    (p : String × ℚ) : Option (List ℚ) :=
  match dictLookup state_map p.1 with
  | none => none
  | some idx => some (ini.set idx p.2)

/-- One iteration of the per-state loop of `_to_matrix_form`: record the
label (a parsed label is always a verbatim token, hence a string), fill this
state's row of the transition matrix, fill its row of the emission matrix. -/
def stateRowsStep (state_map : List (String × Nat))
    (char_map : List (Char × Nat))
    (acc : List (List ℚ) × List (List ℚ) × List (Nat × String))
    (p : String × RawState) :
    Option (List (List ℚ) × List (List ℚ) × List (Nat × String)) :=
  match dictLookup state_map p.1 with
  | none => none
  | some idx =>
    match
      (match dictLookup p.2 "label" with
      | none => some acc.2.2
      | some lv =>
        match fieldStr? lv with
        | none => none
        | some lab => some (dictInsert acc.2.2 idx lab)) with
    | none => none
    | some lm =>
      match dictLookup p.2 "trans" with
      | none => none
      | some tf =>
        match fieldMap? tf with
        | none => none
        | some tm =>
          match
            foldlO (fun tr q =>
              match dictLookup state_map q.1 with
              | none => none
              | some j => some (setEntryT tr idx j q.2)) acc.1 tm with
          | none => none
          | some tr1 =>
            match dictLookup p.2 "only" with
            | none => none
            | some ofv =>
              match fieldMap? ofv with
              | none => none
              | some om =>
                match
                  foldlO (fun em q =>
                    match lookupCharTok char_map q.1 with
                    | none => none
                    | some cj => some (setEntryT em idx cj q.2)) acc.2.1 om with
                | none => none
                | some em1 => some (tr1, em1, lm)

/-- `_to_matrix_form`: extract and delete the `begin` pseudo-state, enumerate
the remaining states and the alphabet, fill the zero-initialized initial
vector, transition matrix and emission matrix from the declared
probabilities, and collect the label and name maps. -/
def _to_matrix_form (alphabet : String) (states : StateDict) :
    Option MatrixModel :=
  match dictLookup states "begin" with
  | none => none
  | some begin_state =>
    let states1 := dictErase states "begin"
    let state_map := buildIdxMap (states1.map Prod.fst)
    let char_map := buildIdxMap alphabet.toList
    let no_states := states1.length
    let initial0 := List.replicate no_states (0 : ℚ)
    let transitions0 :=
      List.replicate no_states (List.replicate no_states (0 : ℚ))
    let emissions0 :=
      List.replicate no_states (List.replicate alphabet.toList.length (0 : ℚ))
    let name_map := states1.enum.map (fun p => (p.1, p.2.1))
    match dictLookup begin_state "trans" with
    | none => none
    | some btf =>
      match fieldMap? btf with
      | none => none
      | some bm =>
        match foldlO (initialStep state_map) initial0 bm with
        | none => none
        | some initial =>
          match
            foldlO (stateRowsStep state_map char_map)
              (transitions0, emissions0, []) states1 with
          | none => none
          | some tel =>
            some ⟨initial, tel.1, tel.2.1, char_map, tel.2.2, name_map⟩

/-- `parse_model`: strip comments, tokenize, parse one header, then state
blocks until the stream is exhausted, then normalize and convert to matrix
form using the header's alphabet. -/
def parse_model (file_like : List String) : Option (Header × MatrixModel) :=
  let tokens := _tokenize (_strip_comments file_like)
  match _parse_header tokens with
  | none => none
  | some (tokens1, header) =>
    match parseStatesLoop (tokens1.length + 1) [] tokens1 with
    | none => none
    | some states =>
      match dictLookup header "alphabet" with
      | none => none
      | some alphabet =>
        match _normalize_states states with
        | none => none
        | some nstates =>
          match _to_matrix_form alphabet nstates with
          | none => none
          | some mm => some (header, mm)

/-! ### Viterbi decoder -/

/-- A log-space score: a rational or `⊥` (the image of probability `0`,
IEEE `-inf`).  `⊥` is absorbing for `+` and minimal for `<`, matching IEEE
arithmetic on the values that occur (no `NaN` can arise: `+inf` is never
produced). -/
abbrev Score := WithBot ℚ

/-- The dynamic-programming score matrix. -/
abbrev ScoreMat := List (List Score)

/-- The backpointer matrix (predecessor state indices). -/
abbrev IdxMat := List (List Nat)

/-- Bounds-checked two-dimensional assignment; `none` models a numpy
`IndexError`. -/
def setEntry? {α : Type} (m : List (List α)) (i j : Nat) (v : α) :
    Option (List (List α)) :=
  match m[i]? with
  | none => none
  | some row => if j < row.length then some (m.set i (row.set j v)) else none

/-- Bounds-checked two-dimensional read; `none` models a numpy
`IndexError`. -/
def getEntry? {α : Type} (m : List (List α)) (i j : Nat) : Option α :=
  m[i]?.bind (fun r => r[j]?)

/-- One iteration of the base-case loop:
`M[0, i] = initial[i] + emissions[i, char_map[sequence[0]]]` (on the
log-transformed matrices). -/
def baseStep (linitial : List Score) (lemissions : List (List Score))
    (char_map : List (Char × Nat)) (seq : List Char) (M : ScoreMat) (i : Nat) :
    Option ScoreMat :=
  match linitial[i]? with
  | none => none
  | some ini =>
    match seq[0]? with
    | none => none
    | some c =>
      match dictLookup char_map c with
      | none => none
      | some ci =>
        match getEntry? lemissions i ci with
        | none => none
        | some e => setEntry? M 0 i (ini + e)

/-- One iteration of the innermost predecessor scan:
`prob = M[i-1, k] + transitions[k, j]; if prob > max_state_prob: update`.
The comparison is strict, so an earlier `k` is kept on ties. -/
def predMaxStep (M : ScoreMat) (ltransitions : List (List Score)) (i j : Nat)
    (best : Nat × Score) (k : Nat) : Option (Nat × Score) :=
  match getEntry? M (i - 1) k with
  | none => none
  | some mp =>
    match getEntry? ltransitions k j with
    | none => none
    | some tr =>
      let prob := mp + tr
      some (if prob > best.2 then (k, prob) else best)

/-- One iteration of the per-state loop inside the forward pass: run the
predecessor scan from `(0, -inf)`, then
`M[i, j] = max + emissions[j, char_map[sequence[i]]]` and `P[i, j] = argmax`. -/
def cellStep (ltransitions lemissions : List (List Score))
    (char_map : List (Char × Nat)) (seq : List Char) (S i : Nat)
    (MP : ScoreMat × IdxMat) (j : Nat) : Option (ScoreMat × IdxMat) :=
  match foldlO (predMaxStep MP.1 ltransitions i j) (0, (⊥ : Score))
      (List.range S) with
  | none => none
  | some km =>
    match seq[i]? with
    | none => none
    | some c =>
      match dictLookup char_map c with
      | none => none
      | some ci =>
        match getEntry? lemissions j ci with
        | none => none
        | some e =>
          match setEntry? MP.1 i j (km.2 + e) with
          | none => none
          | some M1 =>
            match setEntry? MP.2 i j km.1 with
            | none => none
            | some P1 => some (M1, P1)

/-- One iteration of the outer observation loop of the forward pass. -/
def rowStep (ltransitions lemissions : List (List Score))
    (char_map : List (Char × Nat)) (seq : List Char) (S : Nat)
    (MP : ScoreMat × IdxMat) (i : Nat) : Option (ScoreMat × IdxMat) :=
  foldlO (cellStep ltransitions lemissions char_map seq S i) MP (List.range S)

/-- The forward pass of `optimal_path`: log-transform the three matrices,
zero-initialize `M` and `P`, fill row `0` with the base case and rows
`1 … T-1` with the recurrence. -/
def viterbiForward (log : ℚ → Score) (seq : List Char) (mm : MatrixModel) :
    Option (ScoreMat × IdxMat) :=
  let linitial := mm.initial.map log
  let ltransitions := mm.transitions.map (fun r => r.map log)
  let lemissions := mm.emissions.map (fun r => r.map log)
  let no_observations := seq.length
  let no_states := linitial.length
  let M0 : ScoreMat :=
    List.replicate no_observations (List.replicate no_states (0 : Score))
  let P0 : IdxMat :=
    List.replicate no_observations (List.replicate no_states 0)
  match foldlO (baseStep linitial lemissions mm.char_map seq) M0
      (List.range no_states) with
  | none => none
  | some M1 =>
    foldlO (rowStep ltransitions lemissions mm.char_map seq no_states)
      (M1, P0) (List.range' 1 (no_observations - 1))

/-- The scan underlying both maximizations of the decoder: start from
`(0, -inf)` and replace the best pair only on a strictly larger score. -/
def argmaxLoop (f : Nat → Score) (n : Nat) : Nat × Score :=
  (List.range n).foldl (fun best k => if f k > best.2 then (k, f k) else best)
    (0, (⊥ : Score))

/-- `np.argmax` on a one-dimensional array: index of the first occurrence of
the maximum; `none` models the `ValueError` on an empty array. -/
def npArgmax (l : List Score) : Option Nat :=
  match l with
  | [] => none
  | _ :: _ => some (argmaxLoop (fun k => l.getD k ⊥) l.length).1

/-- One iteration of the backtracking loop: emit `label_map[next_state]`,
then `next_state = P[i, next_state]`. -/
def backtrackStep (label_map : List (Nat × String)) (P : IdxMat)
    (acc : List String × Nat) (i : Nat) : Option (List String × Nat) :=
  match dictLookup label_map acc.2 with
  | none => none
  | some lab =>
    match getEntry? P i acc.2 with
    | none => none
    | some ns => some (acc.1 ++ [lab], ns)

/-- The backtracking phase of `optimal_path`: start from
`np.argmax(M[-1])`, walk `i = T-1 … 0` through `P`, then reverse and join the
collected labels. -/
def viterbiBacktrack (label_map : List (Nat × String)) (P : IdxMat)
    (M : ScoreMat) (T : Nat) : Option String :=
  match M.getLast? with
  | none => none
  | some lastRow =>
    match npArgmax lastRow with
    | none => none
    | some s0 =>
      match foldlO (backtrackStep label_map P) ([], s0)
          (List.range T).reverse with
      | none => none
      | some btns => some (String.join btns.1.reverse)

/-- `optimal_path`: the log-space Viterbi decoder.  It returns the score
matrix `M` and the backtracked label path; `none` models any raised
exception. -/
def optimal_path (log : ℚ → Score) (sequence : List Char)
    (model : Header × MatrixModel) : Option (ScoreMat × String) :=
  match viterbiForward log sequence model.2 with
  | none => none
  | some MP =>
    match viterbiBacktrack model.2.label_map MP.2 MP.1 sequence.length with
    | none => none
    | some path => some (MP.1, path)

/-! ### Path summarization -/

/-- Fuelled `itertools.groupby` on an enumerated path: split off the maximal
prefix sharing the key (the character) of the first element. -/
def pyGroupby : Nat → List (Nat × Char) → List (List (Nat × Char))
  | 0, _ => []
  | _, [] => []
  | fuel + 1, p :: rest =>
    (p :: rest.takeWhile (fun q => q.2 = p.2)) ::
      pyGroupby fuel (rest.dropWhile (fun q => q.2 = p.2))

/-- The body of the `summarize` loop on one (always non-empty) group:
`(min(group, key)[0], max(group, key)[0], state)` where Python `min`/`max`
keep the first extremal element and `state` is the group's key, the shared
character. -/
def groupTriple (g : List (Nat × Char)) : Nat × Nat × Char :=
  match g with
  | [] => (0, 0, ' ')
  | p :: rest =>
    (((p :: rest).foldl (fun a q => if q.1 < a.1 then q else a) p).1,
     ((p :: rest).foldl (fun a q => if q.1 > a.1 then q else a) p).1,
     p.2)

/-- `summarize`: group the enumerated path by character and report each group
as `(min index, max index, character)`. -/
def summarize (path : List Char) : List (Nat × Nat × Char) :=
  (pyGroupby (path.length + 1) path.enum).map groupTriple

/-! ### Association-list toolkit -/

theorem dictLookup_dictInsert_self {α β : Type} [DecidableEq α]
    (m : List (α × β)) (k : α) (v : β) :
    dictLookup (dictInsert m k v) k = some v := by
  induction m with
  | nil => simp [dictInsert, dictLookup]
  | cons p rest ih =>
    by_cases h : p.1 = k
    · simp [dictInsert, dictLookup, h]
    · simp [dictInsert, dictLookup, h, ih]

theorem dictLookup_dictInsert_ne {α β : Type} [DecidableEq α]
    (m : List (α × β)) (k k' : α) (v : β) (h : k' ≠ k) :
    dictLookup (dictInsert m k v) k' = dictLookup m k' := by
  induction m with
  | nil => simp [dictInsert, dictLookup, Ne.symm h]
  | cons p rest ih =>
    by_cases hp : p.1 = k
    · subst hp
      simp [dictInsert, dictLookup, Ne.symm h, h]
    · by_cases hp' : p.1 = k'
      · simp [dictInsert, dictLookup, hp, hp', h]
      · simp [dictInsert, dictLookup, hp, hp', ih]

theorem dictInsert_eq_append {α β : Type} [DecidableEq α]
    (m : List (α × β)) (k : α) (v : β) (h : dictLookup m k = none) :
    dictInsert m k v = m ++ [(k, v)] := by
  induction m with
  | nil => simp [dictInsert]
  | cons p rest ih =>
    by_cases hp : p.1 = k
    · simp [dictLookup, hp] at h
    · simp [dictLookup, hp] at h
      simp [dictInsert, hp, ih h]

theorem dictLookup_eq_none_of_not_mem {α β : Type} [DecidableEq α]
    (m : List (α × β)) (k : α) (h : k ∉ m.map Prod.fst) :
    dictLookup m k = none := by
  induction m with
  | nil => simp [dictLookup]
  | cons p rest ih =>
    simp only [List.map_cons, List.mem_cons] at h
    push_neg at h
    simp [dictLookup, Ne.symm h.1, ih h.2]

theorem dictLookup_append_left {α β : Type} [DecidableEq α]
    (m1 m2 : List (α × β)) (k : α) (h : dictLookup m1 k = none) :
    dictLookup (m1 ++ m2) k = dictLookup m2 k := by
  induction m1 with
  | nil => simp
  | cons p rest ih =>
    by_cases hp : p.1 = k
    · simp [dictLookup, hp] at h
    · simp [dictLookup, hp] at h ⊢
      exact ih h

theorem dictLookup_cons_of_ne {α β : Type} [DecidableEq α]
    (p : α × β) (m : List (α × β)) (k : α) (hk : k ≠ p.1) :
    dictLookup (p :: m) k = dictLookup m k := by
  simp [dictLookup, Ne.symm hk]

theorem foldl_dictInsert_fresh {α β : Type} [DecidableEq α]
    (l : List (α × β)) :
    ∀ acc : List (α × β), (l.map Prod.fst).Nodup →
    (∀ k ∈ l.map Prod.fst, dictLookup acc k = none) →
    l.foldl (fun d p => dictInsert d p.1 p.2) acc = acc ++ l := by
  induction l with
  | nil => intro acc _ _; simp
  | cons p rest ih =>
    intro acc hnd hacc
    simp only [List.foldl_cons]
    have hfresh : dictLookup acc p.1 = none := hacc p.1 (by simp)
    rw [dictInsert_eq_append acc p.1 p.2 hfresh]
    simp only [List.map_cons, List.nodup_cons] at hnd
    have hacc' : ∀ k ∈ rest.map Prod.fst,
        dictLookup (acc ++ [(p.1, p.2)]) k = none := by
      intro k hk
      rw [dictLookup_append_left _ _ _ (hacc k (by simp [hk]))]
      have hkp : k ≠ p.1 := fun hkp => hnd.1 (hkp ▸ hk)
      simp [dictLookup, Ne.symm hkp]
    rw [ih (acc ++ [(p.1, p.2)]) hnd.2 hacc']
    simp

theorem dictOfPairs_eq_self (l : List (String × ℚ))
    (h : (l.map Prod.fst).Nodup) : dictOfPairs l = l := by
  have := foldl_dictInsert_fresh l [] h (by intro k _; simp [dictLookup])
  simpa [dictOfPairs] using this

/-! ### Fallible fold toolkit -/

theorem foldlO_append {α β : Type} (f : β → α → Option β) (b : β)
    (l1 l2 : List α) :
    foldlO f b (l1 ++ l2) = (foldlO f b l1).bind (fun b1 => foldlO f b1 l2) := by
  induction l1 generalizing b with
  | nil => simp [foldlO]
  | cons a l ih =>
    simp only [List.cons_append, foldlO]
    cases f b a with
    | none => simp
    | some b1 => simp [ih]

theorem foldlO_none_of_mem {α β : Type} (f : β → α → Option β) (b : β)
    (l : List α) (a : α) (ha : a ∈ l) (h : ∀ b, f b a = none) :
    foldlO f b l = none := by
  induction l generalizing b with
  | nil => simp at ha
  | cons x xs ih =>
    rcases List.mem_cons.mp ha with rfl | hmem
    · simp [foldlO, h b]
    · simp only [foldlO]
      cases f b x with
      | none => rfl
      | some b1 => exact ih b1 hmem

theorem foldlO_eq_foldl {α β : Type} (inv : β → Prop) (f : β → α → Option β)
    (g : β → α → β) (l : List α) (b : β) (hb : inv b)
    (h : ∀ b a, inv b → a ∈ l → f b a = some (g b a) ∧ inv (g b a)) :
    foldlO f b l = some (l.foldl g b) ∧ inv (l.foldl g b) := by
  induction l generalizing b with
  | nil => exact ⟨rfl, hb⟩
  | cons a xs ih =>
    have h1 := h b a hb (by simp)
    simp only [foldlO, h1.1, List.foldl_cons]
    exact ih (g b a) h1.2 (fun b' a' hb' ha' => h b' a' hb' (by simp [ha']))

/-! ### Matrix toolkit -/

/-- A well-shaped matrix: `r` rows, all of length `c`. -/
def Shaped {α : Type} (m : List (List α)) (r c : Nat) : Prop :=
  m.length = r ∧ ∀ row ∈ m, row.length = c

theorem shaped_replicate {α : Type} (r c : Nat) (a : α) :
    Shaped (List.replicate r (List.replicate c a)) r c := by
  constructor
  · simp
  · intro row hrow
    rw [List.eq_of_mem_replicate hrow]
    simp

theorem getRow_of_shaped {α : Type} {m : List (List α)} {r c : Nat}
    (h : Shaped m r c) {i : Nat} (hi : i < r) :
    ∃ row, m[i]? = some row ∧ row.length = c := by
  have hi' : i < m.length := by rw [h.1]; exact hi
  exact ⟨m[i], List.getElem?_eq_some_iff.mpr ⟨hi', rfl⟩,
    h.2 _ (List.getElem_mem hi')⟩

theorem getD_eq_of_getElem? {α : Type} {m : List (List α)} {i : Nat}
    {row : List α} (hrow : m[i]? = some row) : m.getD i [] = row := by
  rw [List.getD_eq_getElem?_getD, hrow]
  rfl

theorem shaped_setEntryT {α : Type} {m : List (List α)} {r c : Nat}
    (h : Shaped m r c) (i j : Nat) (v : α) :
    Shaped (setEntryT m i j v) r c := by
  by_cases hi : i < m.length
  · refine ⟨by simp [setEntryT, h.1], ?_⟩
    intro row hrowmem
    rcases List.mem_or_eq_of_mem_set hrowmem with hmem | rfl
    · exact h.2 row hmem
    · rw [List.length_set,
        getD_eq_of_getElem? (List.getElem?_eq_getElem hi)]
      exact h.2 _ (List.getElem_mem hi)
  · rw [setEntryT, List.set_eq_of_length_le (Nat.le_of_not_lt hi)]
    exact h

theorem setEntry?_eq_setEntryT {α : Type} {m : List (List α)} {r c : Nat}
    (h : Shaped m r c) {i j : Nat} (hi : i < r) (hj : j < c) (v : α) :
    setEntry? m i j v = some (setEntryT m i j v) := by
  obtain ⟨row, hrow, hlen⟩ := getRow_of_shaped h hi
  rw [setEntry?, hrow]
  simp only [hlen, hj, if_pos]
  rw [setEntryT, getD_eq_of_getElem? hrow]

theorem getEntry?_of_shaped {α : Type} {m : List (List α)} {r c : Nat}
    (h : Shaped m r c) {i j : Nat} (hi : i < r) (hj : j < c) :
    ∃ a, getEntry? m i j = some a := by
  obtain ⟨row, hrow, hlen⟩ := getRow_of_shaped h hi
  have hj' : j < row.length := by rw [hlen]; exact hj
  rw [getEntry?, hrow]
  rw [Option.some_bind]
  exact ⟨row[j], List.getElem?_eq_some_iff.mpr ⟨hj', rfl⟩⟩

theorem getEntry?_setEntryT_self {α : Type} {m : List (List α)} {r c : Nat}
    (h : Shaped m r c) {i j : Nat} (hi : i < r) (hj : j < c) (v : α) :
    getEntry? (setEntryT m i j v) i j = some v := by
  obtain ⟨row, hrow, hlen⟩ := getRow_of_shaped h hi
  have hi' : i < m.length := by rw [h.1]; exact hi
  have hj' : j < row.length := by rw [hlen]; exact hj
  rw [getEntry?, setEntryT, getD_eq_of_getElem? hrow,
    List.getElem?_set_self (by simpa using hi')]
  rw [Option.some_bind]
  rw [List.getElem?_set_self (by simpa using hj')]

theorem getEntry?_setEntryT_ne {α : Type} (m : List (List α)) (i j i' j' : Nat)
    (v : α) (hne : i ≠ i' ∨ j ≠ j') :
    getEntry? (setEntryT m i j v) i' j' = getEntry? m i' j' := by
  rcases hne with hne | hne
  · rw [getEntry?, getEntry?, setEntryT, List.getElem?_set_ne hne]
  · by_cases hii : i = i'
    · subst hii
      rw [getEntry?, getEntry?, setEntryT]
      by_cases hi : i < m.length
      · rw [List.getElem?_set_self (by simpa using hi),
          getD_eq_of_getElem? (List.getElem?_eq_getElem hi),
          List.getElem?_eq_getElem hi]
        rw [Option.some_bind, Option.some_bind]
        rw [List.getElem?_set_ne hne]
      · rw [List.set_eq_of_length_le (Nat.le_of_not_lt hi)]
    · rw [getEntry?, getEntry?, setEntryT, List.getElem?_set_ne hii]

/-! ### The maximization scan -/

theorem argmaxLoop_zero (f : Nat → Score) : argmaxLoop f 0 = (0, ⊥) := rfl

theorem argmaxLoop_succ (f : Nat → Score) (n : Nat) :
    argmaxLoop f (n + 1) =
      (if f n > (argmaxLoop f n).2 then (n, f n) else argmaxLoop f n) := by
  unfold argmaxLoop
  rw [List.range_succ, List.foldl_append]
  simp

/-- Characterization of the decoder's maximization scan for a non-empty
range: the returned index is in range and attains the returned score, the
score dominates the whole range, and every strictly earlier index is
strictly worse (so the scan returns the first index attaining the
maximum). -/
theorem argmaxLoop_spec (f : Nat → Score) (n : Nat) (hn : 0 < n) :
    (argmaxLoop f n).1 < n ∧
    f (argmaxLoop f n).1 = (argmaxLoop f n).2 ∧
    (∀ j, j < n → f j ≤ (argmaxLoop f n).2) ∧
    (∀ j, j < (argmaxLoop f n).1 → f j < (argmaxLoop f n).2) := by
  induction n with
  | zero => exact absurd hn (by simp)
  | succ m ih =>
    rcases Nat.eq_zero_or_pos m with rfl | hm
    · rw [argmaxLoop_succ, argmaxLoop_zero]
      by_cases h0 : f 0 > ⊥
      · rw [if_pos h0]
        refine ⟨by omega, rfl, ?_, ?_⟩
        · intro j hj
          interval_cases j
          exact le_refl _
        · intro j hj
          simp at hj
      · rw [if_neg h0]
        have hbot : f 0 = ⊥ := by
          rcases lt_or_eq_of_le (le_of_not_lt h0) with h | h
          · exact absurd h (by simp)
          · exact h
        refine ⟨by omega, by simpa using hbot, ?_, ?_⟩
        · intro j hj
          interval_cases j
          simp [hbot]
        · intro j hj
          simp at hj
    · obtain ⟨hk, hfk, hle, hlt⟩ := ih hm
      rw [argmaxLoop_succ]
      by_cases hnew : f m > (argmaxLoop f m).2
      · rw [if_pos hnew]
        refine ⟨by omega, rfl, ?_, ?_⟩
        · intro j hj
          rcases Nat.lt_succ_iff_lt_or_eq.mp hj with hj | rfl
          · exact le_of_lt (lt_of_le_of_lt (hle j hj) hnew)
          · exact le_refl _
        · intro j hj
          exact lt_of_le_of_lt (hle j hj) hnew
      · rw [if_neg hnew]
        refine ⟨by omega, hfk, ?_, hlt⟩
        intro j hj
        rcases Nat.lt_succ_iff_lt_or_eq.mp hj with hj | rfl
        · exact hle j hj
        · exact le_of_not_lt hnew

/-- C4: in the Viterbi decoder, both the inner maximization over predecessor
states (the strict-`>` scan `argmaxLoop`) and the choice of the final state
(`np.argmax` on the last score row) select the lowest-index state among those
achieving the maximal score. -/
theorem viterbi_tie_break_lowest_index (f : Nat → Score) (S : Nat)
    (hS : 0 < S) (l : List Score) (hl : l ≠ []) :
    ((argmaxLoop f S).1 < S ∧
      f (argmaxLoop f S).1 = (argmaxLoop f S).2 ∧
      (∀ j, j < S → f j ≤ (argmaxLoop f S).2) ∧
      (∀ j, j < (argmaxLoop f S).1 → f j < (argmaxLoop f S).2)) ∧
    (∃ k, npArgmax l = some k ∧ k < l.length ∧
      (∀ j, j < l.length → l.getD j ⊥ ≤ l.getD k ⊥) ∧
      (∀ j, j < k → l.getD j ⊥ < l.getD k ⊥)) := by
  refine ⟨argmaxLoop_spec f S hS, ?_⟩
  obtain ⟨c, rest, rfl⟩ := List.exists_cons_of_ne_nil hl
  obtain ⟨hk, hfk, hle, hlt⟩ :=
    argmaxLoop_spec (fun k => (c :: rest).getD k ⊥) (c :: rest).length (by simp)
  refine ⟨_, rfl, hk, ?_, ?_⟩
  · intro j hj
    exact le_trans (hle j hj) (le_of_eq hfk.symm)
  · intro j hj
    exact lt_of_lt_of_le (hlt j hj) (le_of_eq hfk.symm)

/-- Witness for C4 at a concrete tie: two states with equal scores; the scan
and `np.argmax` both pick index `0`. -/
theorem viterbi_tie_break_lowest_index_witness :
    ((argmaxLoop (fun _ => (0 : Score)) 2).1 < 2 ∧
      (fun _ => (0 : Score)) (argmaxLoop (fun _ => (0 : Score)) 2).1 =
        (argmaxLoop (fun _ => (0 : Score)) 2).2 ∧
      (∀ j, j < 2 → (fun _ => (0 : Score)) j ≤ (argmaxLoop (fun _ => (0 : Score)) 2).2) ∧
      (∀ j, j < (argmaxLoop (fun _ => (0 : Score)) 2).1 →
        (fun _ => (0 : Score)) j < (argmaxLoop (fun _ => (0 : Score)) 2).2)) ∧
    (∃ k, npArgmax [(0 : Score), 0] = some k ∧ k < [(0 : Score), 0].length ∧
      (∀ j, j < [(0 : Score), 0].length →
        [(0 : Score), 0].getD j ⊥ ≤ [(0 : Score), 0].getD k ⊥) ∧
      (∀ j, j < k → [(0 : Score), 0].getD j ⊥ < [(0 : Score), 0].getD k ⊥)) :=
  viterbi_tie_break_lowest_index (fun _ => (0 : Score)) 2 (by decide)
    [(0 : Score), 0] (by decide)

/-- C9: decoding the empty sequence always fails (the base case indexes
`M[0]` and `sequence[0]`, and even with zero states the final
`np.argmax(M[-1])` has nothing to act on), so a non-empty sequence is an
implicit precondition of `optimal_path`. -/
theorem optimal_path_empty_seq_fails (log : ℚ → Score)
    (model : Header × MatrixModel) :
    optimal_path log [] model = none := by
  unfold optimal_path viterbiForward
  cases h : model.2.initial with
  | nil =>
    simp [h, foldlO, viterbiBacktrack, List.range']
  | cons q rest =>
    simp [h, List.range_succ_eq_map, foldlO, baseStep]

/-! ### Normalization claims -/

theorem dictLookup_zip_nodup (ks : List String) (vals : List ℚ)
    (hnd : ks.Nodup) (hlen : ks.length ≤ vals.length) :
    ∀ i, i < ks.length →
      dictLookup (ks.zip vals) (ks.getD i "") = vals[i]? := by
  induction ks generalizing vals with
  | nil => intro i hi; simp at hi
  | cons k kt ih =>
    intro i hi
    cases vals with
    | nil => simp at hlen
    | cons v vt =>
      cases i with
      | zero => simp [dictLookup]
      | succ n =>
        simp only [List.zip_cons_cons, List.getD_cons_succ]
        have hn : n < kt.length := by simpa using hi
        have hmem : kt.getD n "" ∈ kt := by
          rw [List.getD_eq_getElem?_getD, List.getElem?_eq_getElem hn]
          exact List.getElem_mem hn
        simp only [List.nodup_cons] at hnd
        have hk : kt.getD n "" ≠ k := fun hkk => hnd.1 (hkk ▸ hmem)
        rw [dictLookup_cons_of_ne _ _ _ hk]
        have := ih vt hnd.2 (by simpa using hlen) n hn
        simpa using this

/-- C2: a state carrying a `tied_trans` reference to a parent state `X`
(declaring its own target list `ks`) has its `trans` replaced by the
positional zip of `ks` with the values of `X`'s transition mapping, in `X`'s
key-insertion order: the `i`-th declared target receives the `i`-th value of
`X.trans` regardless of any name matching. -/
theorem normalize_tied_trans_positional (states : StateDict) (name X : String)
    (st pst : RawState) (ks : List String) (pm : List (String × ℚ))
    (hst : dictLookup states name = some st)
    (htied : dictLookup st "tied_trans" = some (FieldVal.str X))
    (htrans : dictLookup st "trans" = some (FieldVal.list ks))
    (hpar : dictLookup states X = some pst)
    (hptr : dictLookup pst "trans" = some (FieldVal.map pm))
    (hnd : ks.Nodup) (hlen : ks.length = pm.length)
    (hnl : dictLookup st "tied_letter" = none) :
    normStep states name =
      some (dictInsert states name
        (dictInsert st "trans" (FieldVal.map (ks.zip (pm.map Prod.snd))))) ∧
    ∀ i, i < ks.length →
      dictLookup (ks.zip (pm.map Prod.snd)) (ks.getD i "") =
        (pm.map Prod.snd)[i]? := by
  constructor
  · have hzipkeys : (ks.zip (pm.map Prod.snd)).map Prod.fst = ks := by
      apply List.map_fst_zip
      simp [hlen]
    have hdop : dictOfPairs (ks.zip (pm.map Prod.snd)) =
        ks.zip (pm.map Prod.snd) :=
      dictOfPairs_eq_self _ (by rw [hzipkeys]; exact hnd)
    have hne : ("tied_letter" : String) ≠ "trans" := by decide
    simp only [normStep, tiedTransPhase, hst, htied, fieldStr?, hpar, htrans,
      fieldKeys?, hptr, fieldMapVals?, hdop, tiedLetterPhase,
      dictLookup_dictInsert_self, dictLookup_dictInsert_ne _ _ _ _ hne, hnl]
  · exact dictLookup_zip_nodup ks (pm.map Prod.snd) hnd (by simp [hlen])

/-- Witness for C2: parent `s1` declares `sB : 7` then `sA : 3` (its key
order is not alphabetical); `s2` ties to `s1` with declared target list
`[sA, sB]`, so positionally `sA` receives `7` and `sB` receives `3` — the
opposite of what name matching would give. -/
theorem normalize_tied_trans_positional_witness :
    normStep
      [("s1", [("trans", FieldVal.map [("sB", 7), ("sA", 3)])]),
       ("s2", [("tied_trans", FieldVal.str "s1"),
               ("trans", FieldVal.list ["sA", "sB"])])] "s2" =
      some
        [("s1", [("trans", FieldVal.map [("sB", 7), ("sA", 3)])]),
         ("s2", [("tied_trans", FieldVal.str "s1"),
                 ("trans", FieldVal.map [("sA", 7), ("sB", 3)])])] ∧
    ∀ i, i < (["sA", "sB"] : List String).length →
      dictLookup ((["sA", "sB"] : List String).zip
          (([("sB", (7 : ℚ)), ("sA", 3)]).map Prod.snd))
        ((["sA", "sB"] : List String).getD i "") =
        (([("sB", (7 : ℚ)), ("sA", 3)]).map Prod.snd)[i]? := by
  have h := normalize_tied_trans_positional
    [("s1", [("trans", FieldVal.map [("sB", 7), ("sA", 3)])]),
     ("s2", [("tied_trans", FieldVal.str "s1"),
             ("trans", FieldVal.list ["sA", "sB"])])]
    "s2" "s1"
    [("tied_trans", FieldVal.str "s1"), ("trans", FieldVal.list ["sA", "sB"])]
    [("trans", FieldVal.map [("sB", 7), ("sA", 3)])]
    ["sA", "sB"] [("sB", 7), ("sA", 3)]
    (by decide) (by decide) (by decide) (by decide) (by decide) (by decide)
    (by decide) (by decide)
  exact ⟨by rw [h.1]; decide, h.2⟩

/-- C5: a state carrying a `tied_letter` reference to a state `X` has its
`only` mapping replaced by a full verbatim copy of `X`'s `only` mapping. -/
theorem normalize_tied_letter_copies (states : StateDict) (name X : String)
    (st pst : RawState) (m : List (String × ℚ))
    (hst : dictLookup states name = some st)
    (hnt : dictLookup st "tied_trans" = none)
    (htied : dictLookup st "tied_letter" = some (FieldVal.str X))
    (hpar : dictLookup states X = some pst)
    (hpo : dictLookup pst "only" = some (FieldVal.map m)) :
    normStep states name =
      some (dictInsert states name (dictInsert st "only" (FieldVal.map m))) := by
  simp only [normStep, tiedTransPhase, hst, hnt, tiedLetterPhase, htied,
    fieldStr?, hpar, hpo, fieldMap?]

/-- Witness for C5: `s2` ties its emissions to `s1`; after the step its
`only` is a verbatim copy of `s1`'s. -/
theorem normalize_tied_letter_copies_witness :
    normStep
      [("s1", [("only", FieldVal.map [("A", 9), ("B", 1)])]),
       ("s2", [("tied_letter", FieldVal.str "s1")])] "s2" =
      some
        [("s1", [("only", FieldVal.map [("A", 9), ("B", 1)])]),
         ("s2", [("tied_letter", FieldVal.str "s1"),
                 ("only", FieldVal.map [("A", 9), ("B", 1)])])] := by
  have h := normalize_tied_letter_copies
    [("s1", [("only", FieldVal.map [("A", 9), ("B", 1)])]),
     ("s2", [("tied_letter", FieldVal.str "s1")])]
    "s2" "s1" [("tied_letter", FieldVal.str "s1")]
    [("only", FieldVal.map [("A", 9), ("B", 1)])] [("A", 9), ("B", 1)]
    (by decide) (by decide) (by decide) (by decide) (by decide)
  rw [h]; decide

theorem tiedTransPhase_out {states : StateDict} {name : String}
    {state : RawState} {out : StateDict}
    (h : tiedTransPhase states name state = some out) :
    out = states ∨ ∃ st1, out = dictInsert states name st1 := by
  unfold tiedTransPhase at h
  repeat' split at h
  all_goals first
    | exact Or.inl (Option.some.inj h).symm
    | exact Or.inr ⟨_, (Option.some.inj h).symm⟩
    | exact absurd h (by simp)

theorem tiedLetterPhase_out {states1 : StateDict} {name : String}
    {out : StateDict}
    (h : tiedLetterPhase states1 name = some out) :
    out = states1 ∨ ∃ st2, out = dictInsert states1 name st2 := by
  unfold tiedLetterPhase at h
  repeat' split at h
  all_goals first
    | exact Or.inl (Option.some.inj h).symm
    | exact Or.inr ⟨_, (Option.some.inj h).symm⟩
    | exact absurd h (by simp)

/-- One normalization iteration only ever rewrites the binding of the state
being processed. -/
theorem normStep_preserves_other {states out : StateDict} {n : String}
    (h : normStep states n = some out) (k : String) (hk : k ≠ n) :
    dictLookup out k = dictLookup states k := by
  unfold normStep at h
  split at h
  · exact absurd h (by simp)
  · split at h
    · exact absurd h (by simp)
    · rename_i state _ states1 hphase1
      rcases tiedLetterPhase_out h with rfl | ⟨st2, rfl⟩
      · rcases tiedTransPhase_out hphase1 with rfl | ⟨st1, rfl⟩
        · rfl
        · exact dictLookup_dictInsert_ne _ _ _ _ hk
      · rw [dictLookup_dictInsert_ne _ _ _ _ hk]
        rcases tiedTransPhase_out hphase1 with rfl | ⟨st1, rfl⟩
        · rfl
        · exact dictLookup_dictInsert_ne _ _ _ _ hk

theorem foldlO_normStep_preserves (names : List String) :
    ∀ states out : StateDict, foldlO normStep states names = some out →
    ∀ k, k ∉ names → dictLookup out k = dictLookup states k := by
  induction names with
  | nil =>
    intro states out h k _
    simp only [foldlO, Option.some.injEq] at h
    rw [h]
  | cons n rest ih =>
    intro states out h k hk
    simp only [foldlO] at h
    cases h1 : normStep states n with
    | none => rw [h1] at h; exact absurd h (by simp)
    | some states1 =>
      rw [h1] at h
      have hk1 : k ≠ n := fun hkn => hk (by simp [hkn])
      rw [ih states1 out h k (fun hmem => hk (by simp [hmem]))]
      exact normStep_preserves_other h1 k hk1

/-- Failure of one iteration when the parent's `trans` is still a bare
target list: `parent['trans'].values()` has no meaning for a list
(`AttributeError`). -/
theorem normStep_unresolved_parent (states : StateDict) (name X : String)
    (st pst : RawState) (ks pl : List Token)
    (hst : dictLookup states name = some st)
    (htied : dictLookup st "tied_trans" = some (FieldVal.str X))
    (hsttr : dictLookup st "trans" = some (FieldVal.list ks))
    (hpar : dictLookup states X = some pst)
    (hptr : dictLookup pst "trans" = some (FieldVal.list pl)) :
    normStep states name = none := by
  simp only [normStep, tiedTransPhase, hst, htied, fieldStr?, hpar, hsttr,
    fieldKeys?, hptr, fieldMapVals?]

/-- C10: tie resolution is one non-recursive pass in insertion order.  If a
state's `tied_trans` parent occurs no earlier than the state itself (so the
parent's own `trans` is still its bare declared target list when the
dependent state is visited), the whole normalization fails instead of
resolving the chain transitively. -/
theorem normalize_unresolved_chain_fails (pre post : List (String × RawState))
    (name X : String) (st pst : RawState) (ks pl : List Token)
    (hnd : ((pre ++ (name, st) :: post).map Prod.fst).Nodup)
    (htied : dictLookup st "tied_trans" = some (FieldVal.str X))
    (hsttr : dictLookup st "trans" = some (FieldVal.list ks))
    (hXlater : dictLookup ((name, st) :: post) X = some pst)
    (hXpre : ∀ p ∈ pre, p.1 ≠ X)
    (hptr : dictLookup pst "trans" = some (FieldVal.list pl)) :
    _normalize_states (pre ++ (name, st) :: post) = none := by
  unfold _normalize_states
  rw [List.map_append, List.map_cons, foldlO_append]
  cases hpre : foldlO normStep (pre ++ (name, st) :: post)
      (pre.map Prod.fst) with
  | none => simp
  | some states1 =>
    simp only [Option.some_bind]
    have hXnotpre : X ∉ pre.map Prod.fst := by
      intro hmem
      obtain ⟨p, hp, hpx⟩ := List.mem_map.mp hmem
      exact hXpre p hp hpx
    have hnamenotpre : (name : String) ∉ pre.map Prod.fst := by
      intro hmem
      rw [List.map_append, List.map_cons] at hnd
      have := (List.nodup_append.mp hnd).2.2
      exact this hmem (by simp)
    have hlookname :
        dictLookup (pre ++ (name, st) :: post) name = some st := by
      rw [dictLookup_append_left _ _ _
        (dictLookup_eq_none_of_not_mem _ _ hnamenotpre)]
      simp [dictLookup]
    have hlookX : dictLookup (pre ++ (name, st) :: post) X = some pst := by
      rw [dictLookup_append_left _ _ _
        (dictLookup_eq_none_of_not_mem _ _ hXnotpre)]
      exact hXlater
    have hname1 : dictLookup states1 name = some st := by
      rw [foldlO_normStep_preserves _ _ _ hpre name hnamenotpre]
      exact hlookname
    have hX1 : dictLookup states1 X = some pst := by
      rw [foldlO_normStep_preserves _ _ _ hpre X hXnotpre]
      exact hlookX
    have hfail := normStep_unresolved_parent states1 name X st pst ks pl
      hname1 htied hsttr hX1 hptr
    simp [foldlO, hfail]

/-- Witness for C10: `b` ties its transitions to `a`, but `a` appears later
in the file and is itself tied, so at the moment `b` is processed `a.trans`
is still the bare list `[y]` and normalization fails. -/
theorem normalize_unresolved_chain_fails_witness :
    _normalize_states
      ([] ++ ("b", [("tied_trans", FieldVal.str "a"),
                    ("trans", FieldVal.list ["x"])]) ::
        [("a", [("tied_trans", FieldVal.str "c"),
                ("trans", FieldVal.list ["y"])])]) = none :=
  normalize_unresolved_chain_fails []
    [("a", [("tied_trans", FieldVal.str "c"), ("trans", FieldVal.list ["y"])])]
    "b" "a"
    [("tied_trans", FieldVal.str "a"), ("trans", FieldVal.list ["x"])]
    [("tied_trans", FieldVal.str "c"), ("trans", FieldVal.list ["y"])]
    ["x"] ["y"]
    (by decide) (by decide) (by decide) (by decide)
    (by intro p hp; simp at hp) (by decide)

/-! ### Summarization claim -/

theorem length_takeWhile_le {α : Type} (p : α → Bool) (l : List α) :
    (l.takeWhile p).length ≤ l.length := by
  have h := congrArg List.length (List.takeWhile_append_dropWhile p l)
  rw [List.length_append] at h
  omega

theorem length_dropWhile_le {α : Type} (p : α → Bool) (l : List α) :
    (l.dropWhile p).length ≤ l.length := by
  have h := congrArg List.length (List.takeWhile_append_dropWhile p l)
  rw [List.length_append] at h
  omega

/-- Reference form of the run decomposition, following the specification:
each maximal run of an identical character becomes one inclusive
`(start, end, char)` triple, with `s` the index of the first position. -/
def runsSpecAux : Nat → Nat → List Char → List (Nat × Nat × Char)
  | 0, _, _ => []
  | _, _, [] => []
  | fuel + 1, s, c :: rest =>
    (s, s + (rest.takeWhile (fun x => x = c)).length, c) ::
      runsSpecAux fuel (s + (rest.takeWhile (fun x => x = c)).length + 1)
        (rest.dropWhile (fun x => x = c))

/-- The triples of a run decomposition tile the index range `[s, n)`:
the first starts at `s`, each next starts one past the previous inclusive
end, and the last ends at `n - 1`. -/
def SegsChain (n : Nat) : Nat → List (Nat × Nat × Char) → Prop
  | s, [] => s = n
  | s, t :: rest => t.1 = s ∧ SegsChain n (t.2.1 + 1) rest

theorem takeWhile_enumFrom (c : Char) :
    ∀ (l : List Char) (s : Nat),
      (List.enumFrom s l).takeWhile (fun q => q.2 = c) =
        List.enumFrom s (l.takeWhile (fun x => x = c)) := by
  intro l
  induction l with
  | nil => intro s; rfl
  | cons x xs ih =>
    intro s
    by_cases hx : x = c
    · subst hx
      simp only [List.enumFrom, List.takeWhile_cons]
      simp [List.enumFrom, ih (s + 1)]
    · simp [List.enumFrom, List.takeWhile_cons, hx]

theorem dropWhile_enumFrom (c : Char) :
    ∀ (l : List Char) (s : Nat),
      (List.enumFrom s l).dropWhile (fun q => q.2 = c) =
        List.enumFrom (s + (l.takeWhile (fun x => x = c)).length)
          (l.dropWhile (fun x => x = c)) := by
  intro l
  induction l with
  | nil => intro s; rfl
  | cons x xs ih =>
    intro s
    by_cases hx : x = c
    · subst hx
      simp only [List.enumFrom, List.dropWhile_cons, List.takeWhile_cons]
      simp only [decide_true_eq_true, eq_self_iff_true, if_true,
        decide_eq_true_eq]
      simp only [List.length_cons]
      rw [ih (s + 1)]
      congr 1
      omega
    · simp [List.enumFrom, List.dropWhile_cons, List.takeWhile_cons, hx]

theorem mem_enumFrom_fst_ge {s : Nat} {l : List Char} {q : Nat × Char}
    (h : q ∈ List.enumFrom s l) : s ≤ q.1 :=
  List.le_fst_of_mem_enumFrom h

theorem foldl_min_keep :
    ∀ (l : List (Nat × Char)) (a : Nat × Char),
      (∀ q ∈ l, ¬ q.1 < a.1) →
      l.foldl (fun a q => if q.1 < a.1 then q else a) a = a := by
  intro l
  induction l with
  | nil => intro a _; rfl
  | cons q rest ih =>
    intro a h
    simp only [List.foldl_cons, if_neg (h q (by simp))]
    exact ih a (fun q' hq' => h q' (by simp [hq']))

theorem foldl_max_enumFrom :
    ∀ (tw : List Char) (s : Nat) (a : Nat × Char), a.1 < s →
      ((List.enumFrom s tw).foldl (fun a q => if q.1 > a.1 then q else a) a).1 =
        if tw.isEmpty then a.1 else s + tw.length - 1 := by
  intro tw
  induction tw with
  | nil => intro s a _; rfl
  | cons x xs ih =>
    intro s a ha
    simp only [List.enumFrom, List.foldl_cons]
    rw [if_pos (by simpa using ha)]
    rw [ih (s + 1) (s, x) (by simp)]
    cases xs with
    | nil => simp
    | cons y ys => simp [List.isEmpty_cons]; omega

/-- The per-group min/max computation of `summarize`, evaluated on the
groups `pyGroupby` produces from an enumeration, is exactly the reference
run decomposition. -/
theorem pyGroupby_summarize_general :
    ∀ (fuel : Nat) (path : List Char) (s : Nat), path.length < fuel →
      (pyGroupby fuel (List.enumFrom s path)).map groupTriple =
        runsSpecAux fuel s path := by
  intro fuel
  induction fuel with
  | zero => intro path s h; simp at h
  | succ fuel ih =>
    intro path s h
    cases path with
    | nil => rfl
    | cons c rest =>
      simp only [List.enumFrom, pyGroupby]
      rw [takeWhile_enumFrom c rest (s + 1), dropWhile_enumFrom c rest (s + 1)]
      simp only [List.map_cons]
      rw [ih (rest.dropWhile (fun x => x = c))
        (s + 1 + (rest.takeWhile (fun x => x = c)).length)
        (by
          have h1 := length_dropWhile_le (fun x => x = c) rest
          simp only [List.length_cons] at h
          omega)]
      rw [show runsSpecAux (fuel + 1) s (c :: rest) =
          (s, s + (rest.takeWhile (fun x => x = c)).length, c) ::
            runsSpecAux fuel (s + (rest.takeWhile (fun x => x = c)).length + 1)
              (rest.dropWhile (fun x => x = c)) from rfl]
      have hmin :
          (((s, c) :: List.enumFrom (s + 1) (rest.takeWhile (fun x => x = c))).foldl
            (fun a q => if q.1 < a.1 then q else a) (s, c)) = (s, c) := by
        apply foldl_min_keep
        intro q hq
        rcases List.mem_cons.mp hq with rfl | hq'
        · omega
        · have := mem_enumFrom_fst_ge hq'
          omega
      have hmax :
          (((s, c) :: List.enumFrom (s + 1) (rest.takeWhile (fun x => x = c))).foldl
            (fun a q => if q.1 > a.1 then q else a) (s, c)).1 =
            s + (rest.takeWhile (fun x => x = c)).length := by
        simp only [List.foldl_cons, if_neg (by omega : ¬ (s > s))]
        rw [foldl_max_enumFrom _ (s + 1) (s, c) (by omega)]
        cases htw : rest.takeWhile (fun x => x = c) with
        | nil => simp
        | cons y ys => simp [List.isEmpty_cons]; omega
      rw [show s + 1 + (rest.takeWhile (fun x => x = c)).length =
          s + (rest.takeWhile (fun x => x = c)).length + 1 from by omega]
      congr 1
      rw [groupTriple, hmin, hmax]

/-- `summarize` agrees with the reference run decomposition. -/
theorem summarize_eq_runsSpecAux (path : List Char) :
    summarize path = runsSpecAux (path.length + 1) 0 path := by
  unfold summarize
  have h := pyGroupby_summarize_general (path.length + 1) path 0
    (Nat.lt_succ_self _)
  simpa using h

theorem runsSpecAux_props :
    ∀ (fuel : Nat) (path : List Char) (s : Nat), path.length < fuel →
      SegsChain (s + path.length) s (runsSpecAux fuel s path) ∧
      (∀ t ∈ runsSpecAux fuel s path, t.1 ≤ t.2.1) ∧
      ((runsSpecAux fuel s path).flatMap
        (fun t => List.replicate (t.2.1 + 1 - t.1) t.2.2) = path) ∧
      List.Chain' (fun a b => a.2.2 ≠ b.2.2) (runsSpecAux fuel s path) := by
  intro fuel
  induction fuel with
  | zero => intro path s h; simp at h
  | succ fuel ih =>
    intro path s h
    cases path with
    | nil =>
      refine ⟨by simp [runsSpecAux, SegsChain], by simp [runsSpecAux], ?_, ?_⟩
      · simp [runsSpecAux]
      · simp [runsSpecAux]
    | cons c rest =>
      have hsplit := List.takeWhile_append_dropWhile (fun x => x = c) rest
      have hlen : rest.length =
          (rest.takeWhile (fun x => x = c)).length +
          (rest.dropWhile (fun x => x = c)).length := by
        conv_lhs => rw [← hsplit]
        rw [List.length_append]
      have hfuel : (rest.dropWhile (fun x => x = c)).length < fuel := by
        have h1 := length_dropWhile_le (fun x => x = c) rest
        simp only [List.length_cons] at h
        omega
      obtain ⟨ihchain, ihne, ihflat, ihchain'⟩ :=
        ih (rest.dropWhile (fun x => x = c))
          (s + (rest.takeWhile (fun x => x = c)).length + 1) hfuel
      have htwrep : rest.takeWhile (fun x => x = c) =
          List.replicate (rest.takeWhile (fun x => x = c)).length c := by
        rw [List.eq_replicate_iff]
        exact ⟨rfl, fun b hb => by simpa using List.mem_takeWhile_imp hb⟩
      refine ⟨?_, ?_, ?_, ?_⟩
      · refine ⟨rfl, ?_⟩
        have harith : s + (c :: rest).length =
            (s + (rest.takeWhile (fun x => x = c)).length + 1) +
            (rest.dropWhile (fun x => x = c)).length := by
          simp only [List.length_cons]
          omega
        rw [harith]
        exact ihchain
      · intro t ht
        rcases List.mem_cons.mp ht with rfl | ht'
        · simp
        · exact ihne t ht'
      · simp only [runsSpecAux, List.flatMap_cons]
        rw [ihflat]
        have hrep : List.replicate (s + (rest.takeWhile (fun x => x = c)).length + 1 - s) c =
            c :: rest.takeWhile (fun x => x = c) := by
          have : s + (rest.takeWhile (fun x => x = c)).length + 1 - s =
              (rest.takeWhile (fun x => x = c)).length + 1 := by omega
          rw [this, List.replicate_succ]
          congr 1
          exact htwrep.symm
        simp only [hrep]
        rw [List.cons_append, hsplit]
      · cases hd : rest.dropWhile (fun x => x = c) with
        | nil =>
          have : runsSpecAux fuel
              (s + (rest.takeWhile (fun x => x = c)).length + 1)
              (rest.dropWhile (fun x => x = c)) = [] := by
            rw [hd]
            cases fuel <;> rfl
          simp only [runsSpecAux, this]
          exact List.chain'_singleton _
        | cons x d' =>
          have hxc : ¬ (x = c) := by
            have : ∀ (l : List Char), l.dropWhile (fun y => y = c) = x :: d' →
                ¬ (x = c) := by
              intro l
              induction l with
              | nil => intro hcon; simp at hcon
              | cons y ys ihy =>
                intro hdw
                by_cases hyc : y = c
                · rw [List.dropWhile_cons, if_pos (by simpa using hyc)] at hdw
                  exact ihy hdw
                · rw [List.dropWhile_cons, if_neg (by simpa using hyc)] at hdw
                  obtain ⟨rfl, _⟩ := List.cons.inj hdw
                  exact hyc
            exact this rest hd
          cases fuel with
          | zero => simp at hfuel
          | succ fuel' =>
            simp only [runsSpecAux, hd]
            rw [List.chain'_cons]
            constructor
            · simpa using fun hcx => hxc hcx.symm
            · have := ihchain'
              rw [hd] at this
              simpa [runsSpecAux] using this

/-- C8: `summarize` yields exactly the maximal contiguous runs of identical
labels, as inclusive `(start, end, label)` triples in path order: the
triples tile `[0, length)` consecutively starting at `0`, each is non-empty,
concatenating `end - start + 1` copies of each label reproduces the path
(so each triple's label is the path's label throughout its range), adjacent
triples carry different labels (maximality), and on `"iiiMMMoo"` the result
is exactly `[(0,2,'i'), (3,5,'M'), (6,7,'o')]`. -/
theorem summarize_maximal_runs :
    (∀ path : List Char,
      SegsChain path.length 0 (summarize path) ∧
      (∀ t ∈ summarize path, t.1 ≤ t.2.1) ∧
      ((summarize path).flatMap
        (fun t => List.replicate (t.2.1 + 1 - t.1) t.2.2) = path) ∧
      List.Chain' (fun a b => a.2.2 ≠ b.2.2) (summarize path)) ∧
    summarize "iiiMMMoo".toList = [(0, 2, 'i'), (3, 5, 'M'), (6, 7, 'o')] := by
  constructor
  · intro path
    rw [summarize_eq_runsSpecAux]
    have h := runsSpecAux_props (path.length + 1) path 0 (Nat.lt_succ_self _)
    simpa using h
  · decide

/-! ### Decode-time alphabet error claim -/

theorem foldlO_rowStep_zero_states (ltr lem : List (List Score))
    (cm : List (Char × Nat)) (seq : List Char) (l : List Nat) :
    ∀ MP : ScoreMat × IdxMat,
      foldlO (rowStep ltr lem cm seq 0) MP l = some MP := by
  induction l with
  | nil => intro MP; rfl
  | cons i rest ih =>
    intro MP
    simp only [foldlO, rowStep, List.range_zero]
    exact ih MP

theorem getLast?_replicate_pos {α : Type} (n : Nat) (a : α) (hn : 0 < n) :
    (List.replicate n a).getLast? = some a := by
  rw [List.getLast?_eq_getElem?]
  simp only [List.length_replicate, List.getElem?_replicate]
  rw [if_pos (by omega)]

theorem cellStep_unmapped (ltr lem : List (List Score))
    (cm : List (Char × Nat)) (seq : List Char) (S t j : Nat)
    (hx : ∃ x, seq[t]? = some x ∧ dictLookup cm x = none) :
    ∀ MP : ScoreMat × IdxMat, cellStep ltr lem cm seq S t MP j = none := by
  intro MP
  obtain ⟨x, hxt, hmiss⟩ := hx
  unfold cellStep
  cases foldlO (predMaxStep MP.1 ltr t j) (0, (⊥ : Score)) (List.range S) with
  | none => rfl
  | some km => simp [hxt, hmiss]

/-- C6: decoding a sequence that contains a symbol absent from the model's
`char_map` always fails with an error (no path with missing entries is ever
returned); the model — a pure value which the decoder never mutates (the
log-transformed matrices are fresh local arrays) — can be reused for other
sequences. -/
theorem optimal_path_unmapped_symbol_fails (log : ℚ → Score)
    (model : Header × MatrixModel) (seq : List Char) (c : Char)
    (hc : c ∈ seq) (hmiss : dictLookup model.2.char_map c = none) :
    optimal_path log seq model = none := by
  obtain ⟨t, ht, hceq⟩ := List.getElem_of_mem hc
  have hT : 0 < seq.length := by omega
  unfold optimal_path viterbiForward
  cases hS : model.2.initial with
  | nil =>
    simp only [List.map_nil, List.length_nil, List.range_zero, foldlO]
    rw [foldlO_rowStep_zero_states]
    simp [viterbiBacktrack, getLast?_replicate_pos _ _ hT, npArgmax]
  | cons q irest =>
    simp only [List.map_cons, List.length_cons, List.length_map]
    rcases Nat.eq_zero_or_pos t with rfl | ht1
    · -- the unmapped symbol is the very first one: the base case fails
      rw [List.range_succ_eq_map]
      have h0 : seq[0]? = some c := by
        rw [List.getElem?_eq_getElem ht, hceq]
      simp [foldlO, baseStep, h0, hmiss]
    · -- the unmapped symbol occurs later: row `t` of the recurrence fails
      cases hbase : foldlO
          (baseStep (log q :: List.map log irest)
            (List.map (fun r => List.map log r) model.2.emissions)
            model.2.char_map seq)
          (List.replicate seq.length
            (List.replicate (irest.length + 1) (0 : Score)))
          (List.range (irest.length + 1)) with
      | none => rfl
      | some M1 =>
        have hrow : ∀ MP : ScoreMat × IdxMat,
            rowStep (List.map (fun r => List.map log r) model.2.transitions)
              (List.map (fun r => List.map log r) model.2.emissions)
              model.2.char_map seq (irest.length + 1) MP t = none := by
          intro MP
          unfold rowStep
          rw [List.range_succ_eq_map]
          simp only [foldlO]
          rw [cellStep_unmapped _ _ _ _ _ _ _
            ⟨c, by rw [List.getElem?_eq_getElem ht, hceq], hmiss⟩]
        have hmem : t ∈ List.range' 1 (seq.length - 1) := by
          rw [List.mem_range'_1]
          omega
        simp only [hbase]
        rw [foldlO_none_of_mem _ _ _ t hmem hrow]

/-- Witness for C6: a one-state model over alphabet `A` decoding the
sequence `X`. -/
theorem optimal_path_unmapped_symbol_fails_witness :
    optimal_path (fun _ => (⊥ : Score)) ['X']
      ([], { initial := [1], transitions := [[1]], emissions := [[1]],
             char_map := [('A', 0)], label_map := [(0, "i")],
             name_map := [(0, "s1")] }) = none :=
  optimal_path_unmapped_symbol_fails (fun _ => (⊥ : Score))
    ([], { initial := [1], transitions := [[1]], emissions := [[1]],
           char_map := [('A', 0)], label_map := [(0, "i")],
           name_map := [(0, "s1")] }) ['X'] 'X' (by decide) (by decide)

/-! ### Parser structure claim -/

/-- A minimal complete model file: a comment line, a header, `begin` and two
fully specified states. -/
def goodModelLines : List String :=
  ["# states follow\n",
   "header \x7b\n", "alphabet AB ;\n", "\x7d\n",
   "begin \x7b\n", "trans s1 : 1 ;\n", "\x7d\n",
   "s1 \x7b\n", "trans s1 : 0 s2 : 1 ;\n", "only A : 1 B : 0 ;\n",
   "label i ;\n", "\x7d\n",
   "s2 \x7b\n", "trans s1 : 1 s2 : 0 ;\n", "only A : 0 B : 1 ;\n",
   "label o ;\n", "\x7d\n"]

/-- C7: `parse_model` strips comment lines (the leading `#` line of
`goodModelLines` is ignored), parses one header and then complete state
blocks until the stream is exhausted (the state loop stops exactly on an
empty stream and never leaves trailing tokens behind), and fails fatally on
malformed input: a state block whose tokens run out before `}` is an error
for every fuel and accumulator, an unterminated block makes the whole parse
return nothing, and a trailing token after the last complete state also
makes the whole parse return nothing — no partial model is ever returned. -/
theorem parse_model_header_states_errors :
    (∀ (fuel : Nat) (acc : RawState), parseStateLoop fuel acc [] = none) ∧
    (∀ (fuel : Nat) (sts : StateDict), parseStatesLoop fuel sts [] = some sts) ∧
    parse_model goodModelLines = some
      ([("alphabet", "AB")],
       { initial := [1, 0],
         transitions := [[0, 1], [1, 0]],
         emissions := [[1, 0], [0, 1]],
         char_map := [('A', 0), ('B', 1)],
         label_map := [(0, "i"), (1, "o")],
         name_map := [(0, "s1"), (1, "s2")] }) ∧
    parse_model ["header \x7b alphabet AB ; \x7d s1 \x7b trans"] = none ∧
    parse_model (goodModelLines ++ ["trailing\n"]) = none := by
  refine ⟨?_, ?_, ?_, ?_, ?_⟩
  · intro fuel acc
    cases fuel <;> rfl
  · intro fuel sts
    cases fuel <;> rfl
  · set_option maxRecDepth 100000 in decide
  · set_option maxRecDepth 100000 in decide
  · set_option maxRecDepth 100000 in decide

/-! ### Matrix-form claim -/

theorem buildIdxMap_eq {κ : Type} [DecidableEq κ] (l : List κ) (hnd : l.Nodup) :
    buildIdxMap l = l.enum.map (fun p => (p.2, p.1)) := by
  have hkeys : (l.enum.map (fun p : Nat × κ => (p.2, p.1))).map Prod.fst = l := by
    have hcomp : (Prod.fst ∘ fun p : Nat × κ => (p.2, p.1)) = Prod.snd := by
      funext p; rfl
    rw [List.map_map, hcomp, List.enum_map_snd]
  have h := foldl_dictInsert_fresh (l.enum.map (fun p : Nat × κ => (p.2, p.1)))
    [] (by rw [hkeys]; exact hnd) (by intro k _; simp [dictLookup])
  rw [List.foldl_map] at h
  simpa [buildIdxMap] using h

theorem lookup_enumFrom_swap {κ : Type} [DecidableEq κ] (l : List κ) :
    ∀ s : Nat, l.Nodup →
      (∀ k n, l[k]? = some n →
        dictLookup ((List.enumFrom s l).map (fun p => (p.2, p.1))) n =
          some (s + k)) ∧
      (∀ n i,
        dictLookup ((List.enumFrom s l).map (fun p => (p.2, p.1))) n = some i →
        ∃ k, l[k]? = some n ∧ i = s + k) := by
  induction l with
  | nil =>
    intro s _
    constructor
    · intro k n h; simp at h
    · intro n i h; simp [dictLookup] at h
  | cons x xs ih =>
    intro s hnd
    rw [List.nodup_cons] at hnd
    obtain ⟨ihf, ihb⟩ := ih (s + 1) hnd.2
    constructor
    · intro k n hk
      cases k with
      | zero =>
        simp only [List.getElem?_cons_zero, Option.some.injEq] at hk
        subst hk
        simp [List.enumFrom, dictLookup]
      | succ m =>
        simp only [List.getElem?_cons_succ] at hk
        have hmem : n ∈ xs := by
          rcases List.getElem?_eq_some_iff.mp hk with ⟨hm, rfl⟩
          exact List.getElem_mem hm
        have hnx : n ≠ x := fun hn => hnd.1 (hn ▸ hmem)
        simp only [List.enumFrom, List.map_cons]
        rw [dictLookup_cons_of_ne _ _ _ hnx, ihf m n hk]
        congr 1
        omega
    · intro n i h
      simp only [List.enumFrom, List.map_cons] at h
      by_cases hxn : n = x
      · subst hxn
        simp [dictLookup] at h
        exact ⟨0, by simp, by omega⟩
      · rw [dictLookup_cons_of_ne _ _ _ hxn] at h
        obtain ⟨k, hk, rfl⟩ := ihb n i h
        exact ⟨k + 1, by simpa using hk, by omega⟩

theorem buildIdxMap_lookup_of_getElem {κ : Type} [DecidableEq κ]
    {l : List κ} (hnd : l.Nodup) {k : Nat} {n : κ} (h : l[k]? = some n) :
    dictLookup (buildIdxMap l) n = some k := by
  rw [buildIdxMap_eq l hnd]
  have := (lookup_enumFrom_swap l 0 hnd).1 k n h
  simpa using this

theorem buildIdxMap_lookup_inv {κ : Type} [DecidableEq κ]
    {l : List κ} (hnd : l.Nodup) {n : κ} {i : Nat}
    (h : dictLookup (buildIdxMap l) n = some i) :
    l[i]? = some n := by
  rw [buildIdxMap_eq l hnd] at h
  obtain ⟨k, hk, hik⟩ := (lookup_enumFrom_swap l 0 hnd).2 n i (by simpa using h)
  rw [hik]
  simpa using hk

theorem dictLookup_eq_some_iff_mem {α β : Type} [DecidableEq α]
    (m : List (α × β)) (hnd : (m.map Prod.fst).Nodup) (k : α) (v : β) :
    dictLookup m k = some v ↔ (k, v) ∈ m := by
  induction m with
  | nil => simp [dictLookup]
  | cons p rest ih =>
    simp only [List.map_cons, List.nodup_cons] at hnd
    by_cases hp : p.1 = k
    · subst hp
      rw [show dictLookup (p :: rest) p.1 = some p.2 from by simp [dictLookup]]
      simp only [Option.some.injEq, List.mem_cons]
      constructor
      · intro hv
        exact Or.inl (by rw [← hv])
      · rintro (hv | hv)
        · exact (congrArg Prod.snd hv).symm
        · exact absurd (List.mem_map.mpr ⟨_, hv, rfl⟩) hnd.1
    · rw [dictLookup_cons_of_ne _ _ _ (Ne.symm hp), ih hnd.2]
      simp only [List.mem_cons]
      constructor
      · exact Or.inr
      · rintro (hv | hv)
        · exact absurd (congrArg Prod.fst hv).symm hp
        · exact hv

theorem foldl_set_lookup {α : Type} (pairs : List (Nat × α)) :
    ∀ (init : List α), (pairs.map Prod.fst).Nodup →
      (∀ p ∈ pairs, p.1 < init.length) →
      ∀ i, (pairs.foldl (fun l p => l.set p.1 p.2) init)[i]? =
        (dictLookup pairs i).or init[i]? := by
  induction pairs with
  | nil => intro init _ _ i; simp [dictLookup]
  | cons p rest ih =>
    intro init hnd hb i
    simp only [List.map_cons, List.nodup_cons] at hnd
    simp only [List.foldl_cons]
    rw [ih (init.set p.1 p.2) hnd.2
      (fun q hq => by rw [List.length_set]; exact hb q (by simp [hq]))]
    by_cases hip : i = p.1
    · subst hip
      have hrest : dictLookup rest p.1 = none :=
        dictLookup_eq_none_of_not_mem _ _ hnd.1
      rw [hrest,
        show dictLookup (p :: rest) p.1 = some p.2 from by simp [dictLookup],
        Option.none_or]
      rw [List.getElem?_set_self (hb p (by simp))]
      rfl
    · rw [dictLookup_cons_of_ne _ _ _ hip]
      cases dictLookup rest i with
      | some v => rfl
      | none =>
        rw [Option.none_or, Option.none_or]
        exact List.getElem?_set_ne (fun h : p.1 = i => hip h.symm)

theorem foldl_setEntryT_preserves_other {α : Type} (pairs : List (Nat × α)) :
    ∀ (m : List (List α)) (i i' j : Nat), i' ≠ i →
      getEntry? (pairs.foldl (fun acc p => setEntryT acc i p.1 p.2) m) i' j =
        getEntry? m i' j := by
  induction pairs with
  | nil => intro m i i' j _; rfl
  | cons p rest ih =>
    intro m i i' j hne
    simp only [List.foldl_cons]
    rw [ih _ i i' j hne,
      getEntry?_setEntryT_ne m i p.1 i' j p.2 (Or.inl (fun h => hne h.symm))]

theorem foldl_setEntryT_shaped {α : Type} (pairs : List (Nat × α)) :
    ∀ (m : List (List α)) (r c i : Nat), Shaped m r c →
      Shaped (pairs.foldl (fun acc p => setEntryT acc i p.1 p.2) m) r c := by
  induction pairs with
  | nil => intro m r c i h; exact h
  | cons p rest ih =>
    intro m r c i h
    simp only [List.foldl_cons]
    exact ih _ r c i (shaped_setEntryT h i p.1 p.2)

theorem foldl_setEntryT_row {α : Type} (pairs : List (Nat × α)) :
    ∀ (m : List (List α)) (r c i : Nat), Shaped m r c → i < r →
      (pairs.map Prod.fst).Nodup → (∀ p ∈ pairs, p.1 < c) →
      ∀ j, j < c →
        getEntry? (pairs.foldl (fun acc p => setEntryT acc i p.1 p.2) m) i j =
          (dictLookup pairs j).or (getEntry? m i j) := by
  induction pairs with
  | nil => intro m r c i _ _ _ _ j _; simp [dictLookup]
  | cons p rest ih =>
    intro m r c i hsh hi hnd hb j hj
    simp only [List.map_cons, List.nodup_cons] at hnd
    simp only [List.foldl_cons]
    rw [ih (setEntryT m i p.1 p.2) r c i (shaped_setEntryT hsh i p.1 p.2) hi
      hnd.2 (fun q hq => hb q (by simp [hq])) j hj]
    by_cases hjp : j = p.1
    · subst hjp
      have hrest : dictLookup rest p.1 = none :=
        dictLookup_eq_none_of_not_mem _ _ hnd.1
      rw [hrest, show dictLookup (p :: rest) p.1 = some p.2 from by
        simp [dictLookup], Option.none_or]
      rw [getEntry?_setEntryT_self hsh hi (hb p (by simp)) p.2]
      rfl
    · rw [dictLookup_cons_of_ne _ _ _ hjp]
      cases dictLookup rest j with
      | some v => rfl
      | none =>
        rw [Option.none_or, Option.none_or]
        exact getEntry?_setEntryT_ne m i p.1 i j p.2
          (Or.inr (fun h : p.1 = j => hjp h.symm))

theorem dictLookup_map_key {α β γ : Type} [DecidableEq α] [DecidableEq γ]
    (l : List (α × β)) (f : α → γ) (k : α)
    (hinj : ∀ a ∈ l.map Prod.fst, f a = f k → a = k) :
    dictLookup (l.map (fun q => (f q.1, q.2))) (f k) = dictLookup l k := by
  induction l with
  | nil => rfl
  | cons q rest ih =>
    by_cases hq : q.1 = k
    · simp [dictLookup, hq]
    · have hfq : f q.1 ≠ f k := fun h => hq (hinj q.1 (by simp) h)
      simp only [List.map_cons]
      rw [dictLookup_cons_of_ne _ _ _ (Ne.symm hfq),
        dictLookup_cons_of_ne _ _ _ (Ne.symm hq)]
      exact ih (fun a ha hfa => hinj a (by simp [ha]) hfa)

theorem dictErase_map_fst_sublist {α β : Type} [DecidableEq α]
    (m : List (α × β)) (k : α) :
    ((dictErase m k).map Prod.fst).Sublist (m.map Prod.fst) := by
  induction m with
  | nil => simp [dictErase]
  | cons p rest ih =>
    by_cases hp : p.1 = k
    · simp only [dictErase, if_pos hp, List.map_cons]
      exact (List.sublist_cons_self _ _)
    · simp only [dictErase, if_neg hp, List.map_cons]
      exact ih.cons₂ _

/-- Spec-side reading of a normalized state's transition map (`[]` when the
state has no concrete `trans` mapping, a case the hypotheses exclude). -/
def transMapOf (st : RawState) : List (String × ℚ) :=
  match dictLookup st "trans" with
  | some (FieldVal.map m) => m
  | _ => []

/-- Spec-side reading of a normalized state's emission map. -/
def onlyMapOf (st : RawState) : List (String × ℚ) :=
  match dictLookup st "only" with
  | some (FieldVal.map m) => m
  | _ => []

/-- Total form of the state-index lookup (in scope it is always a hit). -/
def idxOfD (state_map : List (String × Nat)) (n : String) : Nat :=
  (dictLookup state_map n).getD 0

/-- Total form of the emission-column lookup. -/
def charIdxOfD (char_map : List (Char × Nat)) (s : String) : Nat :=
  (lookupCharTok char_map s).getD 0

/-- The pure label-map update of one state-row iteration. -/
def labelInsPure (lm : List (Nat × String)) (idx : Nat) (st : RawState) :
    List (Nat × String) :=
  match dictLookup st "label" with
  | some (FieldVal.str lab) => dictInsert lm idx lab
  | _ => lm

/-- The pure form of `stateRowsStep`, used once all lookups are known to
succeed. -/
def rowsStepPure (state_map : List (String × Nat))
    (char_map : List (Char × Nat))
    (acc : List (List ℚ) × List (List ℚ) × List (Nat × String))
    (p : String × RawState) :
    List (List ℚ) × List (List ℚ) × List (Nat × String) :=
  (((transMapOf p.2).map (fun q => (idxOfD state_map q.1, q.2))).foldl
      (fun tr pr => setEntryT tr (idxOfD state_map p.1) pr.1 pr.2) acc.1,
   ((onlyMapOf p.2).map (fun q => (charIdxOfD char_map q.1, q.2))).foldl
      (fun em pr => setEntryT em (idxOfD state_map p.1) pr.1 pr.2) acc.2.1,
   labelInsPure acc.2.2 (idxOfD state_map p.1) p.2)

theorem stateRowsStep_eq_pure (state_map : List (String × Nat))
    (char_map : List (Char × Nat)) (p : String × RawState)
    (tm om : List (String × ℚ))
    (htm : dictLookup p.2 "trans" = some (FieldVal.map tm))
    (hom : dictLookup p.2 "only" = some (FieldVal.map om))
    (hlab : dictLookup p.2 "label" = none ∨
      ∃ lab, dictLookup p.2 "label" = some (FieldVal.str lab))
    (hidx : ∃ i, dictLookup state_map p.1 = some i)
    (htmres : ∀ q ∈ tm, ∃ j, dictLookup state_map q.1 = some j)
    (homres : ∀ q ∈ om, ∃ cj, lookupCharTok char_map q.1 = some cj) :
    ∀ acc, stateRowsStep state_map char_map acc p =
      some (rowsStepPure state_map char_map acc p) := by
  intro acc
  obtain ⟨idx, hidx⟩ := hidx
  have hidxD : idxOfD state_map p.1 = idx := by rw [idxOfD, hidx]; rfl
  have htrfold : foldlO (fun tr q =>
      match dictLookup state_map q.1 with
      | none => none
      | some j => some (setEntryT tr idx j q.2)) acc.1 tm =
      some (tm.foldl
        (fun tr q => setEntryT tr idx (idxOfD state_map q.1) q.2) acc.1) := by
    refine (foldlO_eq_foldl (fun _ => True) _ _ tm acc.1 trivial ?_).1
    intro tr q _ hq
    obtain ⟨j, hj⟩ := htmres q hq
    have hjD : idxOfD state_map q.1 = j := by rw [idxOfD, hj]; rfl
    rw [hj, hjD]
    exact ⟨rfl, trivial⟩
  have hemfold : foldlO (fun em q =>
      match lookupCharTok char_map q.1 with
      | none => none
      | some cj => some (setEntryT em idx cj q.2)) acc.2.1 om =
      some (om.foldl
        (fun em q => setEntryT em idx (charIdxOfD char_map q.1) q.2) acc.2.1) := by
    refine (foldlO_eq_foldl (fun _ => True) _ _ om acc.2.1 trivial ?_).1
    intro em q _ hq
    obtain ⟨cj, hcj⟩ := homres q hq
    have hcjD : charIdxOfD char_map q.1 = cj := by rw [charIdxOfD, hcj]; rfl
    rw [hcj, hcjD]
    exact ⟨rfl, trivial⟩
  have htmOf : transMapOf p.2 = tm := by rw [transMapOf, htm]
  have homOf : onlyMapOf p.2 = om := by rw [onlyMapOf, hom]
  rcases hlab with hl | ⟨lab, hl⟩
  · simp only [stateRowsStep, rowsStepPure, hidx, hl, htm, hom, fieldMap?,
      htrfold, hemfold, labelInsPure, hidxD, htmOf, homOf, List.foldl_map]
  · simp only [stateRowsStep, rowsStepPure, hidx, hl, htm, hom, fieldMap?,
      htrfold, hemfold, labelInsPure, fieldStr?, hidxD, htmOf, homOf,
      List.foldl_map]

theorem foldl_rowsStepPure_preserves (state_map : List (String × Nat))
    (char_map : List (Char × Nat)) (l : List (String × RawState)) :
    ∀ acc (i j : Nat), (∀ p ∈ l, idxOfD state_map p.1 ≠ i) →
      getEntry? ((l.foldl (rowsStepPure state_map char_map) acc).1) i j =
        getEntry? acc.1 i j ∧
      getEntry? ((l.foldl (rowsStepPure state_map char_map) acc).2.1) i j =
        getEntry? acc.2.1 i j := by
  induction l with
  | nil => intro acc i j _; exact ⟨rfl, rfl⟩
  | cons p rest ih =>
    intro acc i j hne
    simp only [List.foldl_cons]
    obtain ⟨h1, h2⟩ := ih (rowsStepPure state_map char_map acc p) i j
      (fun q hq => hne q (by simp [hq]))
    rw [h1, h2]
    exact ⟨foldl_setEntryT_preserves_other _ _ _ _ _
        (fun h => hne p (by simp) h.symm),
      foldl_setEntryT_preserves_other _ _ _ _ _
        (fun h => hne p (by simp) h.symm)⟩

theorem foldl_rowsStepPure_shaped (state_map : List (String × Nat))
    (char_map : List (Char × Nat)) (l : List (String × RawState)) :
    ∀ acc (r c1 c2 : Nat), Shaped acc.1 r c1 → Shaped acc.2.1 r c2 →
      Shaped ((l.foldl (rowsStepPure state_map char_map) acc).1) r c1 ∧
      Shaped ((l.foldl (rowsStepPure state_map char_map) acc).2.1) r c2 := by
  induction l with
  | nil => intro acc r c1 c2 h1 h2; exact ⟨h1, h2⟩
  | cons p rest ih =>
    intro acc r c1 c2 h1 h2
    simp only [List.foldl_cons]
    exact ih (rowsStepPure state_map char_map acc p) r c1 c2
      (foldl_setEntryT_shaped _ _ r c1 _ h1)
      (foldl_setEntryT_shaped _ _ r c2 _ h2)

theorem initial_fold_eq_pure (state_map : List (String × Nat))
    (bm : List (String × ℚ))
    (hres : ∀ q ∈ bm, ∃ i, dictLookup state_map q.1 = some i)
    (init0 : List ℚ) :
    foldlO (initialStep state_map) init0 bm =
      some ((bm.map (fun q => (idxOfD state_map q.1, q.2))).foldl
        (fun l pr => l.set pr.1 pr.2) init0) := by
  rw [List.foldl_map]
  refine (foldlO_eq_foldl (fun _ => True) _ _ bm init0 trivial ?_).1
  intro ini q _ hq
  obtain ⟨i, hi⟩ := hres q hq
  have hiD : idxOfD state_map q.1 = i := by rw [idxOfD, hi]; rfl
  rw [initialStep, hi, hiD]
  exact ⟨rfl, trivial⟩

theorem foldl_set_length {α : Type} (pairs : List (Nat × α)) :
    ∀ init : List α,
      (pairs.foldl (fun l p => l.set p.1 p.2) init).length = init.length := by
  induction pairs with
  | nil => intro init; rfl
  | cons p rest ih =>
    intro init
    simp only [List.foldl_cons]
    rw [ih (init.set p.1 p.2), List.length_set]

theorem getEntry?_replicate {α : Type} (r c i j : Nat) (a : α)
    (hi : i < r) (hj : j < c) :
    getEntry? (List.replicate r (List.replicate c a)) i j = some a := by
  rw [getEntry?]
  simp [List.getElem?_replicate, hi, hj]

theorem rows_entry_of_ith (state_map : List (String × Nat))
    (char_map : List (Char × Nat)) (reals : List (String × RawState))
    (S c1 c2 : Nat) (hS : reals.length = S)
    (hidxAt : ∀ (k : Nat) (p : String × RawState), reals[k]? = some p →
      idxOfD state_map p.1 = k)
    (i : Nat) (ni : String) (sti : RawState)
    (h : reals[i]? = some (ni, sti))
    (acc0 : List (List ℚ) × List (List ℚ) × List (Nat × String))
    (h1 : Shaped acc0.1 S c1) (h2 : Shaped acc0.2.1 S c2)
    (hnd1 : (((transMapOf sti).map
      (fun q => (idxOfD state_map q.1, q.2))).map Prod.fst).Nodup)
    (hb1 : ∀ q ∈ transMapOf sti, idxOfD state_map q.1 < c1)
    (hnd2 : (((onlyMapOf sti).map
      (fun q => (charIdxOfD char_map q.1, q.2))).map Prod.fst).Nodup)
    (hb2 : ∀ q ∈ onlyMapOf sti, charIdxOfD char_map q.1 < c2) :
    (∀ j, j < c1 →
      getEntry? ((reals.foldl (rowsStepPure state_map char_map) acc0).1) i j =
        (dictLookup ((transMapOf sti).map
            (fun q => (idxOfD state_map q.1, q.2))) j).or
          (getEntry? acc0.1 i j)) ∧
    (∀ a, a < c2 →
      getEntry? ((reals.foldl (rowsStepPure state_map char_map) acc0).2.1) i a =
        (dictLookup ((onlyMapOf sti).map
            (fun q => (charIdxOfD char_map q.1, q.2))) a).or
          (getEntry? acc0.2.1 i a)) := by
  have hilt : i < reals.length := (List.getElem?_eq_some_iff.mp h).1
  have hieq : reals[i] = (ni, sti) := (List.getElem?_eq_some_iff.mp h).2
  have hii : idxOfD state_map ni = i := hidxAt i (ni, sti) h
  have hsplit : reals = reals.take i ++ (ni, sti) :: reals.drop (i + 1) := by
    conv_lhs => rw [← List.take_append_drop i reals]
    congr 1
    rw [List.drop_eq_getElem_cons hilt, hieq]
  have hfold : reals.foldl (rowsStepPure state_map char_map) acc0 =
      (reals.drop (i + 1)).foldl (rowsStepPure state_map char_map)
        (rowsStepPure state_map char_map
          ((reals.take i).foldl (rowsStepPure state_map char_map) acc0)
          (ni, sti)) := by
    conv_lhs => rw [hsplit]
    rw [List.foldl_append, List.foldl_cons]
  have hpre : ∀ p ∈ reals.take i, idxOfD state_map p.1 ≠ i := by
    intro p hp
    obtain ⟨k, hk⟩ := List.mem_iff_getElem?.mp hp
    rw [List.getElem?_take] at hk
    by_cases hki : k < i
    · rw [if_pos hki] at hk
      rw [hidxAt k p hk]
      omega
    · rw [if_neg hki] at hk
      exact absurd hk (by simp)
  have hpost : ∀ p ∈ reals.drop (i + 1), idxOfD state_map p.1 ≠ i := by
    intro p hp
    obtain ⟨k, hk⟩ := List.mem_iff_getElem?.mp hp
    rw [List.getElem?_drop] at hk
    rw [hidxAt (i + 1 + k) p hk]
    omega
  have hmid := foldl_rowsStepPure_shaped state_map char_map (reals.take i)
    acc0 S c1 c2 h1 h2
  constructor
  · intro j hj
    rw [hfold]
    rw [(foldl_rowsStepPure_preserves state_map char_map _ _ i j hpost).1]
    have hstep : getEntry? ((rowsStepPure state_map char_map
        ((reals.take i).foldl (rowsStepPure state_map char_map) acc0)
        (ni, sti)).1) i j =
        (dictLookup ((transMapOf sti).map
            (fun q => (idxOfD state_map q.1, q.2))) j).or
          (getEntry? (((reals.take i).foldl
            (rowsStepPure state_map char_map) acc0).1) i j) := by
      show getEntry? (((transMapOf sti).map
          (fun q => (idxOfD state_map q.1, q.2))).foldl
          (fun acc p => setEntryT acc (idxOfD state_map ni) p.1 p.2)
          ((reals.take i).foldl (rowsStepPure state_map char_map) acc0).1) i j = _
      rw [show idxOfD state_map ni = i from hii]
      exact foldl_setEntryT_row _ _ S c1 i hmid.1 (by omega) hnd1
        (by intro q hq
            obtain ⟨q0, hq0, rfl⟩ := List.mem_map.mp hq
            exact hb1 q0 hq0) j hj
    rw [hstep, (foldl_rowsStepPure_preserves state_map char_map _ _ i j hpre).1]
  · intro a ha
    rw [hfold]
    rw [(foldl_rowsStepPure_preserves state_map char_map _ _ i a hpost).2]
    have hstep : getEntry? ((rowsStepPure state_map char_map
        ((reals.take i).foldl (rowsStepPure state_map char_map) acc0)
        (ni, sti)).2.1) i a =
        (dictLookup ((onlyMapOf sti).map
            (fun q => (charIdxOfD char_map q.1, q.2))) a).or
          (getEntry? (((reals.take i).foldl
            (rowsStepPure state_map char_map) acc0).2.1) i a) := by
      show getEntry? (((onlyMapOf sti).map
          (fun q => (charIdxOfD char_map q.1, q.2))).foldl
          (fun acc p => setEntryT acc (idxOfD state_map ni) p.1 p.2)
          ((reals.take i).foldl (rowsStepPure state_map char_map) acc0).2.1) i a = _
      rw [show idxOfD state_map ni = i from hii]
      exact foldl_setEntryT_row _ _ S c2 i hmid.2 (by omega) hnd2
        (by intro q hq
            obtain ⟨q0, hq0, rfl⟩ := List.mem_map.mp hq
            exact hb2 q0 hq0) a ha
    rw [hstep, (foldl_rowsStepPure_preserves state_map char_map _ _ i a hpre).2]

theorem to_matrix_form_eq (alphabet : String) (states : StateDict)
    (bst : RawState) (bm : List (String × ℚ))
    (hbeg : dictLookup states "begin" = some bst)
    (hbtr : dictLookup bst "trans" = some (FieldVal.map bm))
    (hbmres : ∀ q ∈ bm, ∃ i,
      dictLookup (buildIdxMap ((dictErase states "begin").map Prod.fst)) q.1 =
        some i)
    (hstepres : ∀ acc, ∀ p ∈ dictErase states "begin",
      stateRowsStep (buildIdxMap ((dictErase states "begin").map Prod.fst))
          (buildIdxMap alphabet.toList) acc p =
        some (rowsStepPure
          (buildIdxMap ((dictErase states "begin").map Prod.fst))
          (buildIdxMap alphabet.toList) acc p)) :
    _to_matrix_form alphabet states = some
      { initial := (bm.map (fun q =>
            (idxOfD (buildIdxMap ((dictErase states "begin").map Prod.fst)) q.1,
             q.2))).foldl (fun l pr => l.set pr.1 pr.2)
            (List.replicate (dictErase states "begin").length 0),
        transitions := ((dictErase states "begin").foldl
          (rowsStepPure (buildIdxMap ((dictErase states "begin").map Prod.fst))
            (buildIdxMap alphabet.toList))
          (List.replicate (dictErase states "begin").length
            (List.replicate (dictErase states "begin").length 0),
           List.replicate (dictErase states "begin").length
            (List.replicate alphabet.toList.length 0), [])).1,
        emissions := ((dictErase states "begin").foldl
          (rowsStepPure (buildIdxMap ((dictErase states "begin").map Prod.fst))
            (buildIdxMap alphabet.toList))
          (List.replicate (dictErase states "begin").length
            (List.replicate (dictErase states "begin").length 0),
           List.replicate (dictErase states "begin").length
            (List.replicate alphabet.toList.length 0), [])).2.1,
        char_map := buildIdxMap alphabet.toList,
        label_map := ((dictErase states "begin").foldl
          (rowsStepPure (buildIdxMap ((dictErase states "begin").map Prod.fst))
            (buildIdxMap alphabet.toList))
          (List.replicate (dictErase states "begin").length
            (List.replicate (dictErase states "begin").length 0),
           List.replicate (dictErase states "begin").length
            (List.replicate alphabet.toList.length 0), [])).2.2,
        name_map := (dictErase states "begin").enum.map
          (fun p => (p.1, p.2.1)) } := by
  have hrows := foldlO_eq_foldl (fun _ => True)
    (stateRowsStep (buildIdxMap ((dictErase states "begin").map Prod.fst))
      (buildIdxMap alphabet.toList))
    (rowsStepPure (buildIdxMap ((dictErase states "begin").map Prod.fst))
      (buildIdxMap alphabet.toList))
    (dictErase states "begin")
    (List.replicate (dictErase states "begin").length
      (List.replicate (dictErase states "begin").length 0),
     List.replicate (dictErase states "begin").length
      (List.replicate alphabet.toList.length 0), [])
    trivial (fun acc p _ hp => ⟨hstepres acc p hp, trivial⟩)
  have hinit := initial_fold_eq_pure
    (buildIdxMap ((dictErase states "begin").map Prod.fst)) bm hbmres
    (List.replicate (dictErase states "begin").length 0)
  simp only [_to_matrix_form, hbeg, hbtr, fieldMap?, hinit, hrows.1]

/-- C3: matrix construction removes the `begin` pseudo-state, uses its
`trans` mapping as the initial probabilities, and produces an initial
vector, transition matrix and emission matrix whose entries are exactly the
probabilities declared in each state's `trans`/`only` mappings, with every
unspecified entry — including any real state absent from `begin.trans` —
left at probability `0`. -/
theorem to_matrix_form_entries (alphabet : String) (states : StateDict)
    (bst : RawState) (bm : List (String × ℚ))
    (hbeg : dictLookup states "begin" = some bst)
    (hbtr : dictLookup bst "trans" = some (FieldVal.map bm))
    (hnd : (states.map Prod.fst).Nodup)
    (halph : alphabet.toList.Nodup)
    (hbmnd : (bm.map Prod.fst).Nodup)
    (hbmtgt : ∀ q ∈ bm, q.1 ∈ (dictErase states "begin").map Prod.fst)
    (hstates : ∀ p ∈ dictErase states "begin",
      (∃ tm, dictLookup p.2 "trans" = some (FieldVal.map tm) ∧
        (tm.map Prod.fst).Nodup ∧
        ∀ q ∈ tm, q.1 ∈ (dictErase states "begin").map Prod.fst) ∧
      (∃ om, dictLookup p.2 "only" = some (FieldVal.map om) ∧
        (om.map Prod.fst).Nodup ∧
        ∀ q ∈ om, ∃ c ∈ alphabet.toList, q.1 = String.mk [c]) ∧
      (dictLookup p.2 "label" = none ∨
        ∃ lab, dictLookup p.2 "label" = some (FieldVal.str lab))) :
    ∃ mm : MatrixModel,
      _to_matrix_form alphabet states = some mm ∧
      mm.initial.length = (dictErase states "begin").length ∧
      Shaped mm.transitions (dictErase states "begin").length
        (dictErase states "begin").length ∧
      Shaped mm.emissions (dictErase states "begin").length
        alphabet.toList.length ∧
      ∀ i ni sti, (dictErase states "begin")[i]? = some (ni, sti) →
        mm.initial[i]? = some ((dictLookup bm ni).getD 0) ∧
        (∀ j nj stj, (dictErase states "begin")[j]? = some (nj, stj) →
          getEntry? mm.transitions i j =
            some ((dictLookup (transMapOf sti) nj).getD 0)) ∧
        (∀ a ca, alphabet.toList[a]? = some ca →
          getEntry? mm.emissions i a =
            some ((dictLookup (onlyMapOf sti) (String.mk [ca])).getD 0)) := by
  have hndn : ((dictErase states "begin").map Prod.fst).Nodup :=
    List.Nodup.sublist (dictErase_map_fst_sublist states "begin") hnd
  have hresolve : ∀ n, n ∈ (dictErase states "begin").map Prod.fst →
      ∃ i, dictLookup (buildIdxMap ((dictErase states "begin").map Prod.fst)) n
        = some i := by
    intro n hn
    obtain ⟨k, hk⟩ := List.mem_iff_getElem?.mp hn
    exact ⟨k, buildIdxMap_lookup_of_getElem hndn hk⟩
  have hcresolve : ∀ c, c ∈ alphabet.toList →
      ∃ i, dictLookup (buildIdxMap alphabet.toList) c = some i := by
    intro c hc
    obtain ⟨k, hk⟩ := List.mem_iff_getElem?.mp hc
    exact ⟨k, buildIdxMap_lookup_of_getElem halph hk⟩
  have hidxlt : ∀ n i,
      dictLookup (buildIdxMap ((dictErase states "begin").map Prod.fst)) n =
        some i → i < (dictErase states "begin").length := by
    intro n i hni
    have h1 := buildIdxMap_lookup_inv hndn hni
    have h2 := (List.getElem?_eq_some_iff.mp h1).1
    simpa using h2
  have hcidxlt : ∀ c i, dictLookup (buildIdxMap alphabet.toList) c = some i →
      i < alphabet.toList.length := by
    intro c i hci
    exact (List.getElem?_eq_some_iff.mp (buildIdxMap_lookup_inv halph hci)).1
  have hinjnames : ∀ a, a ∈ (dictErase states "begin").map Prod.fst →
      ∀ b, b ∈ (dictErase states "begin").map Prod.fst →
      idxOfD (buildIdxMap ((dictErase states "begin").map Prod.fst)) a =
        idxOfD (buildIdxMap ((dictErase states "begin").map Prod.fst)) b →
      a = b := by
    intro a ha b hb heq
    obtain ⟨ia, hia⟩ := hresolve a ha
    obtain ⟨ib, hib⟩ := hresolve b hb
    rw [idxOfD, hia, idxOfD, hib] at heq
    simp only [Option.getD_some] at heq
    subst heq
    have h1 := buildIdxMap_lookup_inv hndn hia
    have h2 := buildIdxMap_lookup_inv hndn hib
    rw [h1] at h2
    exact Option.some.inj h2
  have hidxAt : ∀ (k : Nat) (p : String × RawState),
      (dictErase states "begin")[k]? = some p →
      idxOfD (buildIdxMap ((dictErase states "begin").map Prod.fst)) p.1 = k := by
    intro k p hk
    have hk1 : ((dictErase states "begin").map Prod.fst)[k]? = some p.1 := by
      rw [List.getElem?_map, hk]
      rfl
    rw [idxOfD, buildIdxMap_lookup_of_getElem hndn hk1]
    rfl
  have hstepres : ∀ acc, ∀ p ∈ dictErase states "begin",
      stateRowsStep (buildIdxMap ((dictErase states "begin").map Prod.fst))
          (buildIdxMap alphabet.toList) acc p =
        some (rowsStepPure
          (buildIdxMap ((dictErase states "begin").map Prod.fst))
          (buildIdxMap alphabet.toList) acc p) := by
    intro acc p hp
    obtain ⟨⟨tm, htm, htmnd, htmtgt⟩, ⟨om, homap, homnd, homkeys⟩, hlabp⟩ :=
      hstates p hp
    refine stateRowsStep_eq_pure _ _ p tm om htm homap hlabp
      (hresolve p.1 (List.mem_map.mpr ⟨p, hp, rfl⟩))
      (fun q hq => hresolve q.1 (htmtgt q hq)) ?_ acc
    intro q hq
    obtain ⟨c, hcmem, hq1⟩ := homkeys q hq
    rw [hq1]
    exact hcresolve c hcmem
  have heq := to_matrix_form_eq alphabet states bst bm hbeg hbtr
    (fun q hq => hresolve q.1 (hbmtgt q hq)) hstepres
  refine ⟨_, heq, ?_, ?_, ?_, ?_⟩
  · rw [foldl_set_length, List.length_replicate]
  · exact (foldl_rowsStepPure_shaped _ _ (dictErase states "begin") _
      (dictErase states "begin").length (dictErase states "begin").length
      alphabet.toList.length (shaped_replicate _ _ _)
      (shaped_replicate _ _ _)).1
  · exact (foldl_rowsStepPure_shaped _ _ (dictErase states "begin") _
      (dictErase states "begin").length (dictErase states "begin").length
      alphabet.toList.length (shaped_replicate _ _ _)
      (shaped_replicate _ _ _)).2
  · intro i ni sti h
    have hilt : i < (dictErase states "begin").length :=
      (List.getElem?_eq_some_iff.mp h).1
    have hnamei : ((dictErase states "begin").map Prod.fst)[i]? = some ni := by
      rw [List.getElem?_map, h]
      rfl
    have hsmi : dictLookup
        (buildIdxMap ((dictErase states "begin").map Prod.fst)) ni = some i :=
      buildIdxMap_lookup_of_getElem hndn hnamei
    have hidxi : idxOfD
        (buildIdxMap ((dictErase states "begin").map Prod.fst)) ni = i := by
      rw [idxOfD, hsmi]
      rfl
    have hnimem : ni ∈ (dictErase states "begin").map Prod.fst :=
      List.mem_iff_getElem?.mpr ⟨i, hnamei⟩
    obtain ⟨⟨tm, htm, htmnd, htmtgt⟩, ⟨om, homap, homnd, homkeys⟩, hlabp⟩ :=
      hstates (ni, sti) (List.mem_iff_getElem?.mpr ⟨i, h⟩)
    have htmOf : transMapOf sti = tm := by rw [transMapOf]; rw [htm]
    have homOf : onlyMapOf sti = om := by rw [onlyMapOf]; rw [homap]
    refine ⟨?_, ?_, ?_⟩
    · -- initial entry
      rw [foldl_set_lookup _ _ ?ndinit ?binit i]
      case ndinit =>
        have hfst : ((bm.map (fun q =>
            (idxOfD (buildIdxMap ((dictErase states "begin").map Prod.fst)) q.1,
             q.2))).map Prod.fst) =
            (bm.map Prod.fst).map
              (idxOfD (buildIdxMap ((dictErase states "begin").map Prod.fst))) := by
          simp [List.map_map]
        rw [hfst]
        refine List.Nodup.map_on ?_ hbmnd
        intro a ha b hb
        exact fun hab => hinjnames a
          (by obtain ⟨q, hq, rfl⟩ := List.mem_map.mp ha; exact hbmtgt q hq) b
          (by obtain ⟨q, hq, rfl⟩ := List.mem_map.mp hb; exact hbmtgt q hq) hab
      case binit =>
        intro pr hpr
        obtain ⟨q, hq, rfl⟩ := List.mem_map.mp hpr
        obtain ⟨iq, hiq⟩ := hresolve q.1 (hbmtgt q hq)
        rw [List.length_replicate]
        have : idxOfD (buildIdxMap
            ((dictErase states "begin").map Prod.fst)) q.1 = iq := by
          rw [idxOfD, hiq]; rfl
        rw [this]
        exact hidxlt q.1 iq hiq
      have hmk := dictLookup_map_key bm
        (idxOfD (buildIdxMap ((dictErase states "begin").map Prod.fst))) ni
        (fun a ha hfa => hinjnames a
          (by obtain ⟨q, hq, rfl⟩ := List.mem_map.mp ha; exact hbmtgt q hq)
          ni hnimem hfa)
      rw [hidxi] at hmk
      rw [hmk]
      cases hbml : dictLookup bm ni with
      | some v => rfl
      | none =>
        rw [Option.none_or, List.getElem?_replicate, if_pos hilt]
        rfl
    · -- transition entries
      intro j nj stj hj
      have hjlt : j < (dictErase states "begin").length :=
        (List.getElem?_eq_some_iff.mp hj).1
      have hnamej : ((dictErase states "begin").map Prod.fst)[j]? = some nj := by
        rw [List.getElem?_map, hj]
        rfl
      have hidxj : idxOfD
          (buildIdxMap ((dictErase states "begin").map Prod.fst)) nj = j := by
        rw [idxOfD, buildIdxMap_lookup_of_getElem hndn hnamej]
        rfl
      have hnjmem : nj ∈ (dictErase states "begin").map Prod.fst :=
        List.mem_iff_getElem?.mpr ⟨j, hnamej⟩
      have hrows := rows_entry_of_ith
        (buildIdxMap ((dictErase states "begin").map Prod.fst))
        (buildIdxMap alphabet.toList) (dictErase states "begin")
        (dictErase states "begin").length (dictErase states "begin").length
        alphabet.toList.length rfl hidxAt i ni sti h
        (List.replicate (dictErase states "begin").length
            (List.replicate (dictErase states "begin").length (0 : ℚ)),
         List.replicate (dictErase states "begin").length
            (List.replicate alphabet.toList.length (0 : ℚ)),
         ([] : List (Nat × String)))
        (shaped_replicate _ _ _) (shaped_replicate _ _ _)
        ?nd1 ?b1 ?nd2 ?b2
      case nd1 =>
        rw [htmOf]
        have hfst : ((tm.map (fun q =>
            (idxOfD (buildIdxMap ((dictErase states "begin").map Prod.fst)) q.1,
             q.2))).map Prod.fst) =
            (tm.map Prod.fst).map
              (idxOfD (buildIdxMap ((dictErase states "begin").map Prod.fst))) := by
          simp [List.map_map]
        rw [hfst]
        refine List.Nodup.map_on ?_ htmnd
        intro a ha b hb
        exact fun hab => hinjnames a
          (by obtain ⟨q, hq, rfl⟩ := List.mem_map.mp ha; exact htmtgt q hq) b
          (by obtain ⟨q, hq, rfl⟩ := List.mem_map.mp hb; exact htmtgt q hq) hab
      case b1 =>
        rw [htmOf]
        intro q hq
        obtain ⟨iq, hiq⟩ := hresolve q.1 (htmtgt q hq)
        have : idxOfD (buildIdxMap
            ((dictErase states "begin").map Prod.fst)) q.1 = iq := by
          rw [idxOfD, hiq]; rfl
        rw [this]
        exact hidxlt q.1 iq hiq
      case nd2 =>
        rw [homOf]
        have hfst : ((om.map (fun q =>
            (charIdxOfD (buildIdxMap alphabet.toList) q.1, q.2))).map
              Prod.fst) =
            (om.map Prod.fst).map
              (charIdxOfD (buildIdxMap alphabet.toList)) := by
          simp [List.map_map]
        rw [hfst]
        refine List.Nodup.map_on ?_ homnd
        intro a ha b hb hab
        obtain ⟨qa, hqa, rfl⟩ := List.mem_map.mp ha
        obtain ⟨qb, hqb, rfl⟩ := List.mem_map.mp hb
        obtain ⟨ca, hca, hqa1⟩ := homkeys qa hqa
        obtain ⟨cb, hcb, hqb1⟩ := homkeys qb hqb
        obtain ⟨ica, hica⟩ := hcresolve ca hca
        obtain ⟨icb, hicb⟩ := hcresolve cb hcb
        rw [hqa1, hqb1] at hab ⊢
        have hea : charIdxOfD (buildIdxMap alphabet.toList)
            (String.mk [ca]) = ica := by
          rw [charIdxOfD, show lookupCharTok (buildIdxMap alphabet.toList)
            (String.mk [ca]) = dictLookup (buildIdxMap alphabet.toList) ca
            from rfl, hica]
          rfl
        have heb : charIdxOfD (buildIdxMap alphabet.toList)
            (String.mk [cb]) = icb := by
          rw [charIdxOfD, show lookupCharTok (buildIdxMap alphabet.toList)
            (String.mk [cb]) = dictLookup (buildIdxMap alphabet.toList) cb
            from rfl, hicb]
          rfl
        rw [hea, heb] at hab
        subst hab
        have h1 := buildIdxMap_lookup_inv halph hica
        have h2 := buildIdxMap_lookup_inv halph hicb
        rw [h1] at h2
        rw [Option.some.inj h2]
      case b2 =>
        rw [homOf]
        intro q hq
        obtain ⟨c, hc, hq1⟩ := homkeys q hq
        obtain ⟨ic, hic⟩ := hcresolve c hc
        rw [hq1, charIdxOfD, show lookupCharTok (buildIdxMap alphabet.toList)
          (String.mk [c]) = dictLookup (buildIdxMap alphabet.toList) c
          from rfl, hic]
        exact hcidxlt c ic hic
      rw [hrows.1 j hjlt]
      have hmk := dictLookup_map_key (transMapOf sti)
        (idxOfD (buildIdxMap ((dictErase states "begin").map Prod.fst))) nj
        (fun a ha hfa => hinjnames a
          (by rw [htmOf] at ha
              obtain ⟨q, hq, rfl⟩ := List.mem_map.mp ha
              exact htmtgt q hq)
          nj hnjmem hfa)
      rw [hidxj] at hmk
      rw [hmk]
      cases html : dictLookup (transMapOf sti) nj with
      | some v => rfl
      | none =>
        rw [Option.none_or, getEntry?_replicate _ _ _ _ _ hilt hjlt]
        rfl
    · -- emission entries
      intro a ca hca
      have halt : a < alphabet.toList.length :=
        (List.getElem?_eq_some_iff.mp hca).1
      have hcmi : dictLookup (buildIdxMap alphabet.toList) ca = some a :=
        buildIdxMap_lookup_of_getElem halph hca
      have hcidxa : charIdxOfD (buildIdxMap alphabet.toList)
          (String.mk [ca]) = a := by
        rw [charIdxOfD, show lookupCharTok (buildIdxMap alphabet.toList)
          (String.mk [ca]) = dictLookup (buildIdxMap alphabet.toList) ca
          from rfl, hcmi]
        rfl
      have hrows := rows_entry_of_ith
        (buildIdxMap ((dictErase states "begin").map Prod.fst))
        (buildIdxMap alphabet.toList) (dictErase states "begin")
        (dictErase states "begin").length (dictErase states "begin").length
        alphabet.toList.length rfl hidxAt i ni sti h
        (List.replicate (dictErase states "begin").length
            (List.replicate (dictErase states "begin").length (0 : ℚ)),
         List.replicate (dictErase states "begin").length
            (List.replicate alphabet.toList.length (0 : ℚ)),
         ([] : List (Nat × String)))
        (shaped_replicate _ _ _) (shaped_replicate _ _ _)
        ?nd1e ?b1e ?nd2e ?b2e
      case nd1e =>
        rw [htmOf]
        have hfst : ((tm.map (fun q =>
            (idxOfD (buildIdxMap ((dictErase states "begin").map Prod.fst)) q.1,
             q.2))).map Prod.fst) =
            (tm.map Prod.fst).map
              (idxOfD (buildIdxMap ((dictErase states "begin").map Prod.fst))) := by
          simp [List.map_map]
        rw [hfst]
        refine List.Nodup.map_on ?_ htmnd
        intro x hx y hy
        exact fun hxy => hinjnames x
          (by obtain ⟨q, hq, rfl⟩ := List.mem_map.mp hx; exact htmtgt q hq) y
          (by obtain ⟨q, hq, rfl⟩ := List.mem_map.mp hy; exact htmtgt q hq) hxy
      case b1e =>
        rw [htmOf]
        intro q hq
        obtain ⟨iq, hiq⟩ := hresolve q.1 (htmtgt q hq)
        have : idxOfD (buildIdxMap
            ((dictErase states "begin").map Prod.fst)) q.1 = iq := by
          rw [idxOfD, hiq]; rfl
        rw [this]
        exact hidxlt q.1 iq hiq
      case nd2e =>
        rw [homOf]
        have hfst : ((om.map (fun q =>
            (charIdxOfD (buildIdxMap alphabet.toList) q.1, q.2))).map
              Prod.fst) =
            (om.map Prod.fst).map
              (charIdxOfD (buildIdxMap alphabet.toList)) := by
          simp [List.map_map]
        rw [hfst]
        refine List.Nodup.map_on ?_ homnd
        intro x hx y hy hxy
        obtain ⟨qa, hqa, rfl⟩ := List.mem_map.mp hx
        obtain ⟨qb, hqb, rfl⟩ := List.mem_map.mp hy
        obtain ⟨cx, hcx, hqa1⟩ := homkeys qa hqa
        obtain ⟨cy, hcy, hqb1⟩ := homkeys qb hqb
        obtain ⟨icx, hicx⟩ := hcresolve cx hcx
        obtain ⟨icy, hicy⟩ := hcresolve cy hcy
        rw [hqa1, hqb1] at hxy ⊢
        have hea : charIdxOfD (buildIdxMap alphabet.toList)
            (String.mk [cx]) = icx := by
          rw [charIdxOfD, show lookupCharTok (buildIdxMap alphabet.toList)
            (String.mk [cx]) = dictLookup (buildIdxMap alphabet.toList) cx
            from rfl, hicx]
          rfl
        have heb : charIdxOfD (buildIdxMap alphabet.toList)
            (String.mk [cy]) = icy := by
          rw [charIdxOfD, show lookupCharTok (buildIdxMap alphabet.toList)
            (String.mk [cy]) = dictLookup (buildIdxMap alphabet.toList) cy
            from rfl, hicy]
          rfl
        rw [hea, heb] at hxy
        subst hxy
        have h1 := buildIdxMap_lookup_inv halph hicx
        have h2 := buildIdxMap_lookup_inv halph hicy
        rw [h1] at h2
        rw [Option.some.inj h2]
      case b2e =>
        rw [homOf]
        intro q hq
        obtain ⟨c, hc, hq1⟩ := homkeys q hq
        obtain ⟨ic, hic⟩ := hcresolve c hc
        rw [hq1, charIdxOfD, show lookupCharTok (buildIdxMap alphabet.toList)
          (String.mk [c]) = dictLookup (buildIdxMap alphabet.toList) c
          from rfl, hic]
        exact hcidxlt c ic hic
      rw [hrows.2 a halt]
      have hmk := dictLookup_map_key (onlyMapOf sti)
        (charIdxOfD (buildIdxMap alphabet.toList)) (String.mk [ca])
        ?inj
      case inj =>
        intro s hs hfs
        rw [homOf] at hs
        obtain ⟨q, hq, rfl⟩ := List.mem_map.mp hs
        obtain ⟨c, hc, hq1⟩ := homkeys q hq
        obtain ⟨ic, hic⟩ := hcresolve c hc
        have hec : charIdxOfD (buildIdxMap alphabet.toList)
            (String.mk [c]) = ic := by
          rw [charIdxOfD, show lookupCharTok (buildIdxMap alphabet.toList)
            (String.mk [c]) = dictLookup (buildIdxMap alphabet.toList) c
            from rfl, hic]
          rfl
        rw [hq1, hec, hcidxa] at hfs
        subst hfs
        have h1 := buildIdxMap_lookup_inv halph hic
        rw [hca] at h1
        rw [hq1, Option.some.inj h1]
      rw [hcidxa] at hmk
      rw [hmk]
      cases homl : dictLookup (onlyMapOf sti) (String.mk [ca]) with
      | some v => rfl
      | none =>
        rw [Option.none_or, getEntry?_replicate _ _ _ _ _ hilt halt]
        rfl

def witStates : StateDict :=
  [("begin", [("trans", FieldVal.map [("s2", 1)])]),
   ("s1", [("trans", FieldVal.map [("s1", 1)]),
           ("only", FieldVal.map [("A", 1)]),
           ("label", FieldVal.str "i")]),
   ("s2", [("trans", FieldVal.map [("s1", 2), ("s2", 3)]),
           ("only", FieldVal.map [("B", 5)]),
           ("label", FieldVal.str "o")])]

/-- Witness for `to_matrix_form_entries`: a concrete two-state model whose
`begin.trans` names only `s2`; the matrix form exists, has the right shapes,
and every initial/transition/emission entry equals the declared probability
with `0` as the fallback (in particular `s1`, absent from `begin.trans`,
gets initial probability `0`). -/
theorem to_matrix_form_entries_witness :
    ∃ mm : MatrixModel,
      _to_matrix_form "AB" witStates = some mm ∧
      mm.initial.length = (dictErase witStates "begin").length ∧
      Shaped mm.transitions (dictErase witStates "begin").length
        (dictErase witStates "begin").length ∧
      Shaped mm.emissions (dictErase witStates "begin").length
        "AB".toList.length ∧
      ∀ i ni sti, (dictErase witStates "begin")[i]? = some (ni, sti) →
        mm.initial[i]? = some ((dictLookup [("s2", (1 : ℚ))] ni).getD 0) ∧
        (∀ j nj stj, (dictErase witStates "begin")[j]? = some (nj, stj) →
          getEntry? mm.transitions i j =
            some ((dictLookup (transMapOf sti) nj).getD 0)) ∧
        (∀ a ca, "AB".toList[a]? = some ca →
          getEntry? mm.emissions i a =
            some ((dictLookup (onlyMapOf sti) (String.mk [ca])).getD 0)) := by
  refine to_matrix_form_entries "AB" witStates
    [("trans", FieldVal.map [("s2", 1)])] [("s2", (1 : ℚ))]
    (by decide) (by decide) (by decide) (by decide) (by decide) (by decide) ?_
  intro p hp
  have herase : dictErase witStates "begin" =
      [("s1", [("trans", FieldVal.map [("s1", 1)]),
               ("only", FieldVal.map [("A", 1)]),
               ("label", FieldVal.str "i")]),
       ("s2", [("trans", FieldVal.map [("s1", 2), ("s2", 3)]),
               ("only", FieldVal.map [("B", 5)]),
               ("label", FieldVal.str "o")])] := by decide
  rw [herase] at hp
  rcases List.mem_cons.mp hp with rfl | hp
  · exact ⟨⟨_, rfl, by decide, by decide⟩, ⟨_, rfl, by decide, by decide⟩,
      Or.inr ⟨_, rfl⟩⟩
  rcases List.mem_cons.mp hp with rfl | hp
  · exact ⟨⟨_, rfl, by decide, by decide⟩, ⟨_, rfl, by decide, by decide⟩,
      Or.inr ⟨_, rfl⟩⟩
  · exact absurd hp (by simp)

/-! ### The Viterbi forward recurrence, characterized -/

/-- `max over k < n of f k` (`-inf` on an empty range): the value the
recurrence of the forward pass assigns to a cell before the emission term. -/
def rangeMax (f : Nat → Score) (n : Nat) : Score :=
  (List.range n).foldl (fun acc k => max acc (f k)) ⊥

/-- The objective scanned by the predecessor maximization at cell `(t, j)`:
`M[t-1, k] + transitions[k, j]` (on the log-transformed matrix). -/
def predMaxF (M : ScoreMat) (ltr : List (List Score)) (t j k : Nat) : Score :=
  (getEntry? M (t - 1) k).getD ⊥ + (getEntry? ltr k j).getD ⊥

/-- Elementwise `np.log` of a matrix. -/
def logMat (log : ℚ → Score) (m : List (List ℚ)) : List (List Score) :=
  m.map (fun r => r.map log)

/-- The state chain walked by the backtracking loop, indexed by distance `d`
from the top observation `top`: `aux 0` is the starting state and
`aux (d+1) = P[top - d, aux d]`. -/
def btChainAux (P : IdxMat) (s0 top : Nat) : Nat → Nat
  | 0 => s0
  | d + 1 => (getEntry? P (top - d) (btChainAux P s0 top d)).getD 0

theorem rangeMax_succ (f : Nat → Score) (n : Nat) :
    rangeMax f (n + 1) = max (rangeMax f n) (f n) := by
  unfold rangeMax
  rw [List.range_succ, List.foldl_append]
  rfl

theorem argmaxLoop_snd_eq_rangeMax (f : Nat → Score) (n : Nat) :
    (argmaxLoop f n).2 = rangeMax f n := by
  induction n with
  | zero => rfl
  | succ m ih =>
    rw [argmaxLoop_succ, rangeMax_succ, ← ih]
    by_cases h : f m > (argmaxLoop f m).2
    · rw [if_pos h]
      exact (max_eq_right (le_of_lt h)).symm
    · rw [if_neg h]
      exact (max_eq_left (not_lt.mp h)).symm

theorem getEntry?_map {α β : Type} (f : α → β) (m : List (List α)) (i j : Nat) :
    getEntry? (m.map (fun r => r.map f)) i j = (getEntry? m i j).map f := by
  rw [getEntry?, getEntry?, List.getElem?_map]
  cases m[i]? with
  | none => rfl
  | some row =>
    simp [List.getElem?_map]

theorem predMax_fold_eq (M : ScoreMat) (ltr : List (List Score))
    (S T c i j : Nat) (hM : Shaped M T S) (htr : Shaped ltr S c)
    (hi1 : i - 1 < T) (hj : j < c) :
    foldlO (predMaxStep M ltr i j) (0, (⊥ : Score)) (List.range S) =
      some (argmaxLoop (predMaxF M ltr i j) S) := by
  have h := foldlO_eq_foldl (fun _ => True) (predMaxStep M ltr i j)
    (fun best k => if predMaxF M ltr i j k > best.2
      then (k, predMaxF M ltr i j k) else best)
    (List.range S) (0, ⊥) trivial ?_
  · exact h.1
  · intro best k _ hk
    have hkS : k < S := List.mem_range.mp hk
    obtain ⟨mp, hmp⟩ := getEntry?_of_shaped hM hi1 hkS
    obtain ⟨tr, htrv⟩ := getEntry?_of_shaped htr hkS hj
    refine ⟨?_, trivial⟩
    have hf : predMaxF M ltr i j k = mp + tr := by
      rw [predMaxF, hmp, htrv]
      rfl
    simp only [predMaxStep, hmp, htrv, hf]

theorem cellStep_eq (ltr lem : List (List Score)) (cm : List (Char × Nat))
    (seq : List Char) (S A T i : Nat) (MP : ScoreMat × IdxMat)
    (hM : Shaped MP.1 T S) (hP : Shaped MP.2 T S)
    (htr : Shaped ltr S S) (hlem : Shaped lem S A)
    (hiT : i < T) (hi1 : i - 1 < T)
    (c : Char) (hc : seq[i]? = some c)
    (ci : Nat) (hci : dictLookup cm c = some ci) (hciA : ci < A)
    (j : Nat) (hj : j < S) :
    cellStep ltr lem cm seq S i MP j = some
      (setEntryT MP.1 i j ((argmaxLoop (predMaxF MP.1 ltr i j) S).2 +
        (getEntry? lem j ci).getD ⊥),
       setEntryT MP.2 i j (argmaxLoop (predMaxF MP.1 ltr i j) S).1) := by
  obtain ⟨e, he⟩ := getEntry?_of_shaped hlem hj hciA
  simp only [cellStep, predMax_fold_eq MP.1 ltr S T S i j hM htr hi1 hj,
    hc, hci, he, setEntry?_eq_setEntryT hM hiT hj,
    setEntry?_eq_setEntryT hP hiT hj, Option.getD_some]

theorem foldl_cell_spec (ltr lem : List (List Score)) (ci i S T A : Nat)
    (hi0 : 1 ≤ i) (hiT : i < T) (MP : ScoreMat × IdxMat)
    (hM : Shaped MP.1 T S) (hP : Shaped MP.2 T S) :
    ∀ (n : Nat), n ≤ S → ∀ (R : ScoreMat × IdxMat),
      R = (List.range n).foldl (fun acc j =>
          (setEntryT acc.1 i j ((argmaxLoop (predMaxF acc.1 ltr i j) S).2 +
            (getEntry? lem j ci).getD ⊥),
           setEntryT acc.2 i j (argmaxLoop (predMaxF acc.1 ltr i j) S).1)) MP →
      Shaped R.1 T S ∧ Shaped R.2 T S ∧
      (∀ t k, t ≠ i → getEntry? R.1 t k = getEntry? MP.1 t k ∧
        getEntry? R.2 t k = getEntry? MP.2 t k) ∧
      (∀ j, j < n →
        getEntry? R.1 i j =
          some ((argmaxLoop (predMaxF MP.1 ltr i j) S).2 +
            (getEntry? lem j ci).getD ⊥) ∧
        getEntry? R.2 i j = some (argmaxLoop (predMaxF MP.1 ltr i j) S).1) := by
  intro n
  induction n with
  | zero =>
    intro _ R hR
    simp only [List.range_zero, List.foldl_nil] at hR
    subst hR
    exact ⟨hM, hP, fun t k _ => ⟨rfl, rfl⟩,
      fun j hj => absurd hj (Nat.not_lt_zero j)⟩
  | succ n ih =>
    intro hn R hR
    rw [List.range_succ, List.foldl_append, List.foldl_cons,
      List.foldl_nil] at hR
    generalize hRp : (List.range n).foldl (fun acc j =>
        (setEntryT acc.1 i j ((argmaxLoop (predMaxF acc.1 ltr i j) S).2 +
          (getEntry? lem j ci).getD ⊥),
         setEntryT acc.2 i j (argmaxLoop (predMaxF acc.1 ltr i j) S).1)) MP
      = Rp at hR
    obtain ⟨h1, h2, hpres, hent⟩ := ih (by omega) Rp hRp.symm
    have hnS : n < S := hn
    have hfeq : predMaxF Rp.1 ltr i n = predMaxF MP.1 ltr i n := by
      funext k
      rw [predMaxF, predMaxF, (hpres (i - 1) k (by omega)).1]
    refine ⟨?_, ?_, ?_, ?_⟩
    · rw [hR]
      exact shaped_setEntryT h1 i n _
    · rw [hR]
      exact shaped_setEntryT h2 i n _
    · intro t k ht
      rw [hR]
      exact ⟨(getEntry?_setEntryT_ne Rp.1 i n t k _
          (Or.inl (Ne.symm ht))).trans (hpres t k ht).1,
        (getEntry?_setEntryT_ne Rp.2 i n t k _
          (Or.inl (Ne.symm ht))).trans (hpres t k ht).2⟩
    · intro j hj
      rcases Nat.lt_succ_iff_lt_or_eq.mp hj with hj' | rfl
      · rw [hR]
        exact ⟨(getEntry?_setEntryT_ne Rp.1 i n i j _
            (Or.inr (Ne.symm (Nat.ne_of_lt hj')))).trans (hent j hj').1,
          (getEntry?_setEntryT_ne Rp.2 i n i j _
            (Or.inr (Ne.symm (Nat.ne_of_lt hj')))).trans (hent j hj').2⟩
      · rw [hR]
        refine ⟨(getEntry?_setEntryT_self h1 hiT hnS
            ((argmaxLoop (predMaxF Rp.1 ltr i j) S).2 +
              (getEntry? lem j ci).getD ⊥)).trans (by rw [hfeq]),
          (getEntry?_setEntryT_self h2 hiT hnS
            (argmaxLoop (predMaxF Rp.1 ltr i j) S).1).trans (by rw [hfeq])⟩

theorem rowStep_spec (ltr lem : List (List Score)) (cm : List (Char × Nat))
    (seq : List Char) (S A T i : Nat)
    (htr : Shaped ltr S S) (hlem : Shaped lem S A)
    (hi0 : 1 ≤ i) (hiT : i < T)
    (c : Char) (hc : seq[i]? = some c)
    (ci : Nat) (hci : dictLookup cm c = some ci) (hciA : ci < A)
    (MP : ScoreMat × IdxMat) (hM : Shaped MP.1 T S) (hP : Shaped MP.2 T S) :
    ∃ MP', rowStep ltr lem cm seq S MP i = some MP' ∧
      Shaped MP'.1 T S ∧ Shaped MP'.2 T S ∧
      (∀ t k, t ≠ i → getEntry? MP'.1 t k = getEntry? MP.1 t k ∧
        getEntry? MP'.2 t k = getEntry? MP.2 t k) ∧
      (∀ j, j < S →
        getEntry? MP'.1 i j =
          some ((argmaxLoop (predMaxF MP.1 ltr i j) S).2 +
            (getEntry? lem j ci).getD ⊥) ∧
        getEntry? MP'.2 i j = some (argmaxLoop (predMaxF MP.1 ltr i j) S).1) := by
  have hfold := foldlO_eq_foldl
    (fun acc => Shaped acc.1 T S ∧ Shaped acc.2 T S)
    (cellStep ltr lem cm seq S i)
    (fun acc j =>
      (setEntryT acc.1 i j ((argmaxLoop (predMaxF acc.1 ltr i j) S).2 +
        (getEntry? lem j ci).getD ⊥),
       setEntryT acc.2 i j (argmaxLoop (predMaxF acc.1 ltr i j) S).1))
    (List.range S) MP ⟨hM, hP⟩ ?_
  · refine ⟨_, hfold.1, ?_⟩
    have h := foldl_cell_spec ltr lem ci i S T A hi0 hiT MP hM hP S
      (le_refl S) _ rfl
    exact ⟨h.1, h.2.1, h.2.2.1, h.2.2.2⟩
  · intro acc j hinv hj
    have hjS : j < S := List.mem_range.mp hj
    constructor
    · exact cellStep_eq ltr lem cm seq S A T i acc hinv.1 hinv.2 htr hlem hiT
        (by omega) c hc ci hci hciA j hjS
    · exact ⟨shaped_setEntryT hinv.1 i j _, shaped_setEntryT hinv.2 i j _⟩

/-- The forward recurrence, as satisfied by the finished tables at cell
`(u, j)`: `M[u, j]` is the best predecessor score plus the emission term and
`P[u, j]` is the scan's argmax. -/
def viterbiRel (ltr lem : List (List Score)) (cm : List (Char × Nat))
    (seq : List Char) (S : Nat) (M : ScoreMat) (P : IdxMat) (u j : Nat) :
    Prop :=
  ∀ c ci, seq[u]? = some c → dictLookup cm c = some ci →
    getEntry? M u j =
      some ((argmaxLoop (predMaxF M ltr u j) S).2 +
        (getEntry? lem j ci).getD ⊥) ∧
    getEntry? P u j = some (argmaxLoop (predMaxF M ltr u j) S).1

theorem rows_fold_spec (ltr lem : List (List Score)) (cm : List (Char × Nat))
    (seq : List Char) (S A T : Nat)
    (htr : Shaped ltr S S) (hlem : Shaped lem S A)
    (hmap : ∀ u, u < T → ∃ c ci, seq[u]? = some c ∧
      dictLookup cm c = some ci ∧ ci < A) :
    ∀ (m : Nat) (MP : ScoreMat × IdxMat), 1 + m ≤ T →
      Shaped MP.1 T S → Shaped MP.2 T S →
      ∃ MP', foldlO (rowStep ltr lem cm seq S) MP (List.range' 1 m) =
          some MP' ∧
        Shaped MP'.1 T S ∧ Shaped MP'.2 T S ∧
        (∀ t k, t = 0 ∨ m < t →
          getEntry? MP'.1 t k = getEntry? MP.1 t k ∧
          getEntry? MP'.2 t k = getEntry? MP.2 t k) ∧
        (∀ u, 1 ≤ u → u ≤ m → ∀ j, j < S →
          viterbiRel ltr lem cm seq S MP'.1 MP'.2 u j) := by
  intro m
  induction m with
  | zero =>
    intro MP _ hM hP
    exact ⟨MP, rfl, hM, hP, fun t k _ => ⟨rfl, rfl⟩,
      fun u hu1 hu2 => absurd (le_trans hu1 hu2) (by omega)⟩
  | succ m ih =>
    intro MP hmT hM hP
    obtain ⟨MP1, hf1, h1M, h1P, h1pres, h1rel⟩ := ih MP (by omega) hM hP
    obtain ⟨c, ci, hc, hci, hciA⟩ := hmap (1 + m) (by omega)
    obtain ⟨MP2, hf2, h2M, h2P, h2pres, h2ent⟩ :=
      rowStep_spec ltr lem cm seq S A T (1 + m) htr hlem (by omega) (by omega)
        c hc ci hci hciA MP1 h1M h1P
    refine ⟨MP2, ?_, h2M, h2P, ?_, ?_⟩
    · rw [List.range'_concat, foldlO_append, hf1]
      simp only [Option.some_bind, foldlO, one_mul, hf2]
    · intro t k ht
      have h2 := h2pres t k (by omega)
      have h1 := h1pres t k (by omega)
      exact ⟨h2.1.trans h1.1, h2.2.trans h1.2⟩
    · intro u hu1 hu2 j hj
      rcases Nat.lt_or_ge u (m + 1) with hu | hu
      · have hrel := h1rel u hu1 (by omega) j hj
        simp only [viterbiRel] at hrel ⊢
        intro c' ci' hc' hci'
        have h := hrel c' ci' hc' hci'
        have hfeq : predMaxF MP2.1 ltr u j = predMaxF MP1.1 ltr u j := by
          funext k
          rw [predMaxF, predMaxF, (h2pres (u - 1) k (by omega)).1]
        rw [(h2pres u j (by omega)).1, (h2pres u j (by omega)).2, hfeq]
        exact h
      · have huE : u = 1 + m := by omega
        subst huE
        simp only [viterbiRel]
        intro c' ci' hc' hci'
        have hcc : c' = c := by
          rw [hc] at hc'
          exact (Option.some.inj hc').symm
        subst hcc
        have hcici : ci' = ci := by
          rw [hci] at hci'
          exact (Option.some.inj hci').symm
        subst hcici
        have h := h2ent j hj
        have hfeq : predMaxF MP2.1 ltr (1 + m) j =
            predMaxF MP1.1 ltr (1 + m) j := by
          funext k
          rw [predMaxF, predMaxF, (h2pres (1 + m - 1) k (by omega)).1]
        rw [hfeq]
        exact h

theorem foldl_base_spec (lini : List Score) (lem : List (List Score))
    (ci T S : Nat) (hT : 0 < T) (M : ScoreMat) (hM : Shaped M T S) :
    ∀ (n : Nat), n ≤ S → ∀ (R : ScoreMat),
      R = (List.range n).foldl (fun M s =>
        setEntryT M 0 s (lini.getD s ⊥ + (getEntry? lem s ci).getD ⊥)) M →
      Shaped R T S ∧
      (∀ t k, t ≠ 0 → getEntry? R t k = getEntry? M t k) ∧
      (∀ s, s < n → getEntry? R 0 s =
        some (lini.getD s ⊥ + (getEntry? lem s ci).getD ⊥)) := by
  intro n
  induction n with
  | zero =>
    intro _ R hR
    simp only [List.range_zero, List.foldl_nil] at hR
    subst hR
    exact ⟨hM, fun t k _ => rfl, fun s hs => absurd hs (Nat.not_lt_zero s)⟩
  | succ n ih =>
    intro hn R hR
    rw [List.range_succ, List.foldl_append, List.foldl_cons,
      List.foldl_nil] at hR
    generalize hRp : (List.range n).foldl (fun M s =>
        setEntryT M 0 s (lini.getD s ⊥ + (getEntry? lem s ci).getD ⊥)) M
      = Rp at hR
    obtain ⟨h1, hpres, hent⟩ := ih (by omega) Rp hRp.symm
    have hnS : n < S := hn
    refine ⟨?_, ?_, ?_⟩
    · rw [hR]
      exact shaped_setEntryT h1 0 n _
    · intro t k ht
      rw [hR]
      exact (getEntry?_setEntryT_ne Rp 0 n t k _
        (Or.inl (Ne.symm ht))).trans (hpres t k ht)
    · intro s hs
      rcases Nat.lt_succ_iff_lt_or_eq.mp hs with hs' | rfl
      · rw [hR]
        exact (getEntry?_setEntryT_ne Rp 0 n 0 s _
          (Or.inr (Ne.symm (Nat.ne_of_lt hs')))).trans (hent s hs')
      · rw [hR]
        exact getEntry?_setEntryT_self h1 hT hnS _

theorem base_fold_eq (lini : List Score) (lem : List (List Score))
    (cm : List (Char × Nat)) (seq : List Char) (S A T : Nat)
    (hlen : lini.length = S) (hlem : Shaped lem S A) (hT : 0 < T)
    (c : Char) (hc : seq[0]? = some c) (ci : Nat)
    (hci : dictLookup cm c = some ci) (hciA : ci < A)
    (M0 : ScoreMat) (hM0 : Shaped M0 T S) :
    ∃ M1, foldlO (baseStep lini lem cm seq) M0 (List.range S) = some M1 ∧
      Shaped M1 T S ∧
      (∀ t k, t ≠ 0 → getEntry? M1 t k = getEntry? M0 t k) ∧
      (∀ s, s < S → getEntry? M1 0 s =
        some (lini.getD s ⊥ + (getEntry? lem s ci).getD ⊥)) := by
  have hfold := foldlO_eq_foldl (fun M => Shaped M T S)
    (baseStep lini lem cm seq)
    (fun M s => setEntryT M 0 s (lini.getD s ⊥ + (getEntry? lem s ci).getD ⊥))
    (List.range S) M0 hM0 ?_
  · have spec := foldl_base_spec lini lem ci T S hT M0 hM0 S (le_refl S) _ rfl
    exact ⟨_, hfold.1, spec.1, spec.2.1, spec.2.2⟩
  · intro M s hinv hs
    have hsS : s < S := List.mem_range.mp hs
    have hsl : s < lini.length := by rw [hlen]; exact hsS
    obtain ⟨e, he⟩ := getEntry?_of_shaped hlem hsS hciA
    have hini : lini[s]? = some lini[s] := List.getElem?_eq_getElem hsl
    constructor
    · simp only [baseStep, hini, hc, hci, he,
        setEntry?_eq_setEntryT hinv hT hsS, List.getD_eq_getElem?_getD,
        Option.getD_some]
    · exact shaped_setEntryT hinv 0 s _

theorem shaped_logMat (log : ℚ → Score) (m : List (List ℚ)) (r c : Nat)
    (h : Shaped m r c) : Shaped (logMat log m) r c := by
  constructor
  · simp [logMat, h.1]
  · intro row hrow
    simp only [logMat, List.mem_map] at hrow
    obtain ⟨row0, hmem, rfl⟩ := hrow
    simp [h.2 row0 hmem]

theorem viterbiForward_spec (log : ℚ → Score) (seq : List Char)
    (mm : MatrixModel) (S A : Nat)
    (hS : mm.initial.length = S) (hS0 : 0 < S)
    (htr : Shaped mm.transitions S S) (hlem : Shaped mm.emissions S A)
    (hT : 0 < seq.length)
    (hmap : ∀ u, u < seq.length → ∃ c ci, seq[u]? = some c ∧
      dictLookup mm.char_map c = some ci ∧ ci < A) :
    ∃ M P, viterbiForward log seq mm = some (M, P) ∧
      Shaped M seq.length S ∧ Shaped P seq.length S ∧
      (∀ s, s < S → ∀ c ci, seq[0]? = some c →
        dictLookup mm.char_map c = some ci →
        getEntry? M 0 s = some ((mm.initial.map log).getD s ⊥ +
          (getEntry? (logMat log mm.emissions) s ci).getD ⊥)) ∧
      (∀ u, 1 ≤ u → u < seq.length → ∀ j, j < S →
        viterbiRel (logMat log mm.transitions) (logMat log mm.emissions)
          mm.char_map seq S M P u j) ∧
      (∀ k, k < S → getEntry? P 0 k = some 0) := by
  obtain ⟨c0, ci0, hc0, hci0, hci0A⟩ := hmap 0 hT
  have hlenl : (mm.initial.map log).length = S := by
    rw [List.length_map, hS]
  have hltr := shaped_logMat log mm.transitions S S htr
  have hlem' := shaped_logMat log mm.emissions S A hlem
  obtain ⟨M1, hbase, hM1, hbpres, hbent⟩ := base_fold_eq (mm.initial.map log)
    (logMat log mm.emissions) mm.char_map seq S A seq.length hlenl hlem' hT
    c0 hc0 ci0 hci0 hci0A (List.replicate seq.length
      (List.replicate S (0 : Score))) (shaped_replicate _ _ _)
  obtain ⟨MP', hrows, hM', hP', hrpres, hrrel⟩ := rows_fold_spec
    (logMat log mm.transitions) (logMat log mm.emissions) mm.char_map seq
    S A seq.length hltr hlem' hmap (seq.length - 1)
    (M1, List.replicate seq.length (List.replicate S 0)) (by omega) hM1
    (shaped_replicate _ _ _)
  refine ⟨MP'.1, MP'.2, ?_, hM', hP', ?_, ?_, ?_⟩
  · simp only [logMat] at hbase hrows
    simp only [viterbiForward, hlenl, hbase, Prod.mk.eta]
    exact hrows
  · intro s hsS c ci hc hci
    have hcc : c = c0 := by
      rw [hc0] at hc
      exact (Option.some.inj hc).symm
    subst hcc
    have hcici : ci = ci0 := by
      rw [hci0] at hci
      exact (Option.some.inj hci).symm
    subst hcici
    exact ((hrpres 0 s (Or.inl rfl)).1).trans (hbent s hsS)
  · intro u hu1 hu2 j hj
    exact hrrel u hu1 (by omega) j hj
  · intro k hkS
    exact ((hrpres 0 k (Or.inl rfl)).2).trans
      (getEntry?_replicate seq.length S 0 k 0 hT hkS)

theorem btChainAux_shift (P : IdxMat) (s : Nat) (i : Nat) :
    ∀ d, btChainAux P s (i + 1) (d + 1) =
      btChainAux P (btChainAux P s (i + 1) 1) i d := by
  intro d
  induction d with
  | zero => rfl
  | succ e ih =>
    show (getEntry? P (i + 1 - (e + 1))
        (btChainAux P s (i + 1) (e + 1))).getD 0 = _
    rw [show i + 1 - (e + 1) = i - e from by omega, ih]
    rfl

theorem foldlO_cons {α β : Type} (f : β → α → Option β) (b : β) (a : α)
    (l : List α) :
    foldlO f b (a :: l) = (f b a).bind (fun b1 => foldlO f b1 l) := by
  show (match f b a with
    | none => none
    | some b1 => foldlO f b1 l) = _
  cases f b a with
  | none => rfl
  | some b1 => rfl

theorem backtrack_fold (lm : List (Nat × String)) (P : IdxMat) (S T : Nat)
    (hP : Shaped P T S)
    (hent : ∀ i s, i < T → s < S → ∃ v, getEntry? P i s = some v ∧ v < S)
    (hlab : ∀ k, k < S → ∃ lab, dictLookup lm k = some lab) :
    ∀ (i : Nat), i < T → ∀ (s : Nat), s < S → ∀ (acc : List String),
      foldlO (backtrackStep lm P) (acc, s) (List.range (i + 1)).reverse =
        some (acc ++ (List.range (i + 1)).map
            (fun d => (dictLookup lm (btChainAux P s i d)).getD ""),
          btChainAux P s i (i + 1)) := by
  intro i
  induction i with
  | zero =>
    intro h0T s hs acc
    obtain ⟨lab, hlabs⟩ := hlab s hs
    obtain ⟨v, hv, hvS⟩ := hent 0 s h0T hs
    rw [show (List.range (0 + 1)).reverse = [0] from rfl, foldlO_cons]
    simp only [backtrackStep, hlabs, hv, Option.some_bind]
    have hm : (List.range (0 + 1)).map
        (fun d => (dictLookup lm (btChainAux P s 0 d)).getD "") = [lab] := by
      rw [show List.range (0 + 1) = [0] from rfl]
      simp only [List.map_cons, List.map_nil]
      rw [show btChainAux P s 0 0 = s from rfl, hlabs]
      rfl
    have hb1 : btChainAux P s 0 (0 + 1) = v := by
      show (getEntry? P (0 - 0) (btChainAux P s 0 0)).getD 0 = v
      rw [show btChainAux P s 0 0 = s from rfl,
        show (0 : Nat) - 0 = 0 from rfl, hv]
      rfl
    rw [hm, hb1]
    rfl
  | succ i ih =>
    intro hiT s hs acc
    obtain ⟨lab, hlabs⟩ := hlab s hs
    obtain ⟨v, hv, hvS⟩ := hent (i + 1) s hiT hs
    have hrev : (List.range (i + 1 + 1)).reverse =
        (i + 1) :: (List.range (i + 1)).reverse := by
      rw [List.range_succ, List.reverse_append, List.reverse_singleton]
      rfl
    rw [hrev, foldlO_cons]
    simp only [backtrackStep, hlabs, hv, Option.some_bind]
    rw [ih (by omega) v hvS (acc ++ [lab])]
    have hv1 : btChainAux P s (i + 1) 1 = v := by
      show (getEntry? P (i + 1 - 0) s).getD 0 = v
      rw [Nat.sub_zero, hv]
      rfl
    have hm : (List.range (i + 1 + 1)).map
        (fun d => (dictLookup lm (btChainAux P s (i + 1) d)).getD "") =
        lab :: (List.range (i + 1)).map
          (fun d => (dictLookup lm (btChainAux P v i d)).getD "") := by
      rw [List.range_succ_eq_map, List.map_cons, List.map_map]
      congr 1
      · show (dictLookup lm (btChainAux P s (i + 1) 0)).getD "" = lab
        rw [show btChainAux P s (i + 1) 0 = s from rfl, hlabs]
        rfl
      · refine List.map_congr_left ?_
        intro d _
        show (dictLookup lm (btChainAux P s (i + 1) (d + 1))).getD "" = _
        rw [btChainAux_shift, hv1]
    rw [hm]
    have hlast : btChainAux P s (i + 1) (i + 1 + 1) =
        btChainAux P v i (i + 1) := by
      rw [btChainAux_shift, hv1]
    rw [hlast]
    simp

theorem viterbiBacktrack_spec (lm : List (Nat × String)) (P : IdxMat)
    (M : ScoreMat) (S T : Nat) (hS0 : 0 < S) (hT : 0 < T)
    (hM : Shaped M T S) (hP : Shaped P T S)
    (hent : ∀ i s, i < T → s < S → ∃ v, getEntry? P i s = some v ∧ v < S)
    (hlab : ∀ k, k < S → ∃ lab, dictLookup lm k = some lab) :
    ∃ path, viterbiBacktrack lm P M T = some path ∧
      ∃ cur : Nat → Nat,
        (∀ i, i < T → cur i < S) ∧
        (∀ k, k < S → (getEntry? M (T - 1) k).getD ⊥ ≤
          (getEntry? M (T - 1) (cur (T - 1))).getD ⊥) ∧
        (∀ j, j < cur (T - 1) → (getEntry? M (T - 1) j).getD ⊥ <
          (getEntry? M (T - 1) (cur (T - 1))).getD ⊥) ∧
        (∀ i, 1 ≤ i → i < T → getEntry? P i (cur i) = some (cur (i - 1))) ∧
        path = String.join ((List.range T).map
          (fun i => (dictLookup lm (cur i)).getD "")) := by
  obtain ⟨lastRow, hlr, hlrlen⟩ := getRow_of_shaped hM (show T - 1 < T by omega)
  have hgetLast : M.getLast? = some lastRow := by
    rw [List.getLast?_eq_getElem?, hM.1]
    exact hlr
  rcases lastRow with _ | ⟨x, xs⟩
  · rw [List.length_nil] at hlrlen
    omega
  have hnp : npArgmax (x :: xs) =
      some (argmaxLoop (fun k => (x :: xs).getD k ⊥) S).1 := by
    show some (argmaxLoop (fun k => (x :: xs).getD k ⊥) (x :: xs).length).1 =
      _
    rw [hlrlen]
  have spec := argmaxLoop_spec (fun k => (x :: xs).getD k ⊥) S hS0
  have hs0S : (argmaxLoop (fun k => (x :: xs).getD k ⊥) S).1 < S := spec.1
  have hfM : ∀ k, (getEntry? M (T - 1) k).getD ⊥ = (x :: xs).getD k ⊥ := by
    intro k
    rw [getEntry?, hlr, Option.some_bind, List.getD_eq_getElem?_getD]
  have hbound : ∀ d, btChainAux P
      (argmaxLoop (fun k => (x :: xs).getD k ⊥) S).1 (T - 1) d < S := by
    intro d
    induction d with
    | zero => exact hs0S
    | succ e ihe =>
      obtain ⟨v, hv, hvS⟩ := hent (T - 1 - e) _ (by omega) ihe
      show (getEntry? P (T - 1 - e) _).getD 0 < S
      rw [hv]
      exact hvS
  have hfold := backtrack_fold lm P S T hP hent hlab (T - 1) (by omega)
    (argmaxLoop (fun k => (x :: xs).getD k ⊥) S).1 hs0S []
  have hTT : T - 1 + 1 = T := by omega
  rw [hTT] at hfold
  simp only [List.nil_append] at hfold
  refine ⟨String.join (((List.range T).map (fun d => (dictLookup lm
      (btChainAux P (argmaxLoop (fun k => (x :: xs).getD k ⊥) S).1
        (T - 1) d)).getD "")).reverse), ?_,
    fun i => btChainAux P (argmaxLoop (fun k => (x :: xs).getD k ⊥) S).1
      (T - 1) (T - 1 - i), ?_, ?_, ?_, ?_, ?_⟩
  · simp only [viterbiBacktrack, hgetLast, hnp, hfold]
  · intro i _
    exact hbound (T - 1 - i)
  · intro k hk
    simp only [Nat.sub_self]
    rw [hfM, hfM]
    exact le_trans (spec.2.2.1 k hk) (le_of_eq spec.2.1.symm)
  · intro j hj
    simp only [Nat.sub_self] at hj ⊢
    rw [hfM, hfM]
    exact lt_of_lt_of_le (spec.2.2.2 j hj) (le_of_eq spec.2.1.symm)
  · intro i hi1 hiT
    obtain ⟨v, hv, hvS⟩ := hent i _ hiT (hbound (T - 1 - i))
    have h1 : T - 1 - (i - 1) = (T - 1 - i) + 1 := by omega
    show getEntry? P i _ = some (btChainAux P
      (argmaxLoop (fun k => (x :: xs).getD k ⊥) S).1 (T - 1) (T - 1 - (i - 1)))
    rw [hv, h1]
    have h2 : T - 1 - (T - 1 - i) = i := by omega
    show some v = some ((getEntry? P (T - 1 - (T - 1 - i))
      (btChainAux P (argmaxLoop (fun k => (x :: xs).getD k ⊥) S).1
        (T - 1) (T - 1 - i))).getD 0)
    rw [h2, hv]
    rfl
  · have hrevmap : (((List.range T).map (fun d => (dictLookup lm
        (btChainAux P (argmaxLoop (fun k => (x :: xs).getD k ⊥) S).1
          (T - 1) d)).getD "")).reverse) =
        (List.range T).map (fun i => (dictLookup lm
          (btChainAux P (argmaxLoop (fun k => (x :: xs).getD k ⊥) S).1
            (T - 1) (T - 1 - i))).getD "") := by
      rw [← List.map_reverse, List.range_eq_range', List.reverse_range']
      rw [← List.range_eq_range', List.map_map]
      refine List.map_congr_left ?_
      intro a _
      simp only [Function.comp]
      rw [show 0 + T - 1 - a = T - 1 - a from by omega]
    rw [hrevmap]

/-- C1: on a well-shaped model and a non-empty sequence whose symbols are
all in the character map (and with every state labelled), `optimal_path`
computes the log-space Viterbi table: `M[0, s] = log initial[s] +
log emissions[s, c0]`; for `1 ≤ t < T` and each state `j`,
`M[t, j] = (max over k of (M[t-1, k] + log transitions[k, j])) +
log emissions[j, ct]`, with the first maximizing `k` stored in `P[t, j]`;
and the returned path is the label sequence obtained by backtracking
through `P` from the best final state, reversed into sequence order. -/
theorem optimal_path_viterbi (log : ℚ → Score) (seq : List Char)
    (hdr : Header) (mm : MatrixModel) (S A : Nat)
    (hS : mm.initial.length = S) (hS0 : 0 < S)
    (htr : Shaped mm.transitions S S) (hlem : Shaped mm.emissions S A)
    (hT : 0 < seq.length)
    (hmap : ∀ u, u < seq.length → ∃ c ci, seq[u]? = some c ∧
      dictLookup mm.char_map c = some ci ∧ ci < A)
    (hlab : ∀ k, k < S → ∃ lab, dictLookup mm.label_map k = some lab) :
    ∃ M P path, optimal_path log seq (hdr, mm) = some (M, path) ∧
      viterbiForward log seq mm = some (M, P) ∧
      Shaped M seq.length S ∧ Shaped P seq.length S ∧
      (∀ s, s < S → ∀ c ci, seq[0]? = some c →
        dictLookup mm.char_map c = some ci →
        ∀ v e, mm.initial[s]? = some v →
        getEntry? mm.emissions s ci = some e →
        getEntry? M 0 s = some (log v + log e)) ∧
      (∀ t j, 1 ≤ t → t < seq.length → j < S →
        ∀ c ci, seq[t]? = some c → dictLookup mm.char_map c = some ci →
        ∀ e, getEntry? mm.emissions j ci = some e →
        getEntry? M t j = some
          (rangeMax (predMaxF M (logMat log mm.transitions) t j) S + log e) ∧
        ∃ km, getEntry? P t j = some km ∧ km < S ∧
          predMaxF M (logMat log mm.transitions) t j km =
            rangeMax (predMaxF M (logMat log mm.transitions) t j) S ∧
          (∀ k, k < km → predMaxF M (logMat log mm.transitions) t j k <
            rangeMax (predMaxF M (logMat log mm.transitions) t j) S)) ∧
      (∃ cur : Nat → Nat,
        (∀ i, i < seq.length → cur i < S) ∧
        (∀ k, k < S → (getEntry? M (seq.length - 1) k).getD ⊥ ≤
          (getEntry? M (seq.length - 1) (cur (seq.length - 1))).getD ⊥) ∧
        (∀ j, j < cur (seq.length - 1) →
          (getEntry? M (seq.length - 1) j).getD ⊥ <
          (getEntry? M (seq.length - 1) (cur (seq.length - 1))).getD ⊥) ∧
        (∀ i, 1 ≤ i → i < seq.length →
          getEntry? P i (cur i) = some (cur (i - 1))) ∧
        path = String.join ((List.range seq.length).map
          (fun i => (dictLookup mm.label_map (cur i)).getD ""))) := by
  obtain ⟨M, P, hfwd, hMsh, hPsh, hbase, hrel, hP0⟩ := viterbiForward_spec
    log seq mm S A hS hS0 htr hlem hT hmap
  have hent : ∀ i s, i < seq.length → s < S →
      ∃ v, getEntry? P i s = some v ∧ v < S := by
    intro i s hi hsS
    rcases Nat.eq_zero_or_pos i with rfl | hi1
    · exact ⟨0, hP0 s hsS, hS0⟩
    · obtain ⟨c, ci, hc, hci, hciA⟩ := hmap i hi
      have h := hrel i hi1 hi s hsS c ci hc hci
      exact ⟨_, h.2, (argmaxLoop_spec _ S hS0).1⟩
  obtain ⟨path, hbt, cur, hcurS, hmax, hmaxstrict, hchain, hpath⟩ :=
    viterbiBacktrack_spec mm.label_map P M S seq.length hS0 hT hMsh hPsh
      hent hlab
  refine ⟨M, P, path, ?_, hfwd, hMsh, hPsh, ?_, ?_, cur, hcurS, hmax,
    hmaxstrict, hchain, hpath⟩
  · simp only [optimal_path, hfwd, hbt]
  · intro s hsS c ci hc hci v e hv he
    have h := hbase s hsS c ci hc hci
    have h1 : (mm.initial.map log).getD s ⊥ = log v := by
      rw [List.getD_eq_getElem?_getD, List.getElem?_map, hv]
      rfl
    have h2 : (getEntry? (logMat log mm.emissions) s ci).getD ⊥ = log e := by
      show (getEntry? (mm.emissions.map (fun r => r.map log)) s ci).getD ⊥ = _
      rw [getEntry?_map, he]
      rfl
    rw [h, h1, h2]
  · intro t j ht1 htT hjS c ci hc hci e he
    have h := hrel t ht1 htT j hjS c ci hc hci
    have hameq := argmaxLoop_snd_eq_rangeMax
      (predMaxF M (logMat log mm.transitions) t j) S
    have hspec := argmaxLoop_spec
      (predMaxF M (logMat log mm.transitions) t j) S hS0
    constructor
    · have h2 : (getEntry? (logMat log mm.emissions) j ci).getD ⊥ = log e := by
        show (getEntry? (mm.emissions.map (fun r => r.map log)) j ci).getD ⊥
          = _
        rw [getEntry?_map, he]
        rfl
      rw [h.1, hameq, h2]
    · exact ⟨_, h.2, hspec.1, by rw [← hameq]; exact hspec.2.1,
        fun k hk => by rw [← hameq]; exact hspec.2.2.2 k hk⟩

def witLog : ℚ → Score := fun q => if q ≤ 0 then ⊥ else (q : WithBot ℚ)

def witMM : MatrixModel :=
  { initial := [1, 2],
    transitions := [[1, 2], [3, 4]],
    emissions := [[1, 0], [0, 1]],
    char_map := [('A', 0), ('B', 1)],
    label_map := [(0, "i"), (1, "o")],
    name_map := [(0, "s1"), (1, "s2")] }

/-- Witness for `optimal_path_viterbi`: a concrete two-state, two-symbol
model and the sequence `AB`; the decoder succeeds and its tables and path
satisfy the base case, the recurrence and the backtracking description. -/
theorem optimal_path_viterbi_witness :
    ∃ M P path,
      optimal_path witLog ['A', 'B'] (([] : Header), witMM) = some (M, path) ∧
      viterbiForward witLog ['A', 'B'] witMM = some (M, P) ∧
      Shaped M 2 2 ∧ Shaped P 2 2 ∧
      (∀ s, s < 2 → ∀ c ci, (['A', 'B'] : List Char)[0]? = some c →
        dictLookup witMM.char_map c = some ci →
        ∀ v e, witMM.initial[s]? = some v →
        getEntry? witMM.emissions s ci = some e →
        getEntry? M 0 s = some (witLog v + witLog e)) ∧
      (∀ t j, 1 ≤ t → t < 2 → j < 2 →
        ∀ c ci, (['A', 'B'] : List Char)[t]? = some c →
        dictLookup witMM.char_map c = some ci →
        ∀ e, getEntry? witMM.emissions j ci = some e →
        getEntry? M t j = some
          (rangeMax (predMaxF M (logMat witLog witMM.transitions) t j) 2 +
            witLog e) ∧
        ∃ km, getEntry? P t j = some km ∧ km < 2 ∧
          predMaxF M (logMat witLog witMM.transitions) t j km =
            rangeMax (predMaxF M (logMat witLog witMM.transitions) t j) 2 ∧
          (∀ k, k < km →
            predMaxF M (logMat witLog witMM.transitions) t j k <
            rangeMax (predMaxF M (logMat witLog witMM.transitions) t j) 2)) ∧
      (∃ cur : Nat → Nat,
        (∀ i, i < 2 → cur i < 2) ∧
        (∀ k, k < 2 → (getEntry? M 1 k).getD ⊥ ≤
          (getEntry? M 1 (cur 1)).getD ⊥) ∧
        (∀ j, j < cur 1 → (getEntry? M 1 j).getD ⊥ <
          (getEntry? M 1 (cur 1)).getD ⊥) ∧
        (∀ i, 1 ≤ i → i < 2 → getEntry? P i (cur i) = some (cur (i - 1))) ∧
        path = String.join ((List.range 2).map
          (fun i => (dictLookup witMM.label_map (cur i)).getD ""))) := by
  refine optimal_path_viterbi witLog ['A', 'B'] [] witMM 2 2 rfl (by decide)
    ⟨rfl, by decide⟩ ⟨rfl, by decide⟩ (by decide) ?_ ?_
  · intro u hu
    have hu2 : u < 2 := hu
    interval_cases u
    · exact ⟨'A', 0, rfl, by decide, by decide⟩
    · exact ⟨'B', 1, rfl, by decide, by decide⟩
  · intro k hk
    interval_cases k
    · exact ⟨"i", by decide⟩
    · exact ⟨"o", by decide⟩
